import Mathlib

/-!
Verification of the ASEI integration-flow platform core against its
specification.  The definitions below are a shallow embedding of the
JavaScript source: pure fragments become Lean functions, effectful
fragments become explicit state passing, platform calls (URL parsing,
outbound HTTP) become function parameters supplied by the environment,
and JavaScript falsiness on strings is modelled explicitly.
-/

/-- JavaScript `s || dflt` for a possibly-absent string: `undefined`,
`null` and the empty string are falsy and select the default. -/
def jsOrStr (s : Option String) (dflt : String) : String :=
  match s with
  | some v => if v = "" then dflt else v
  | none => dflt

/-- JavaScript `s || null` for a possibly-absent string: the empty string
collapses to `null`. -/
def jsOrNull (s : Option String) : Option String :=
  match s with
  | some v => if v = "" then none else some v
  | none => none

/-- Substring test, used for the `/stripe/.test(lower)` heuristic. -/
def strContains (s pat : String) : Bool :=
  decide (1 < (s.splitOn pat).length)

/-! ## Secret Vault (src/backend/src/utils/crypto.js = src/unnamed/part_013) -/

/-- Key selection from `const ENC_KEY = process.env.SECRETS_ENC_KEY ||
"dev-only-change-me-please"` (part_013 line 2).  `env` is the value of
`SECRETS_ENC_KEY` in the process environment at startup. -/
def encKeyOf (env : Option String) : String :=
  jsOrStr env "dev-only-change-me-please"

/-- Abstract ciphertext produced by `CryptoJS.AES.encrypt(JSON.stringify obj,
ENC_KEY)`: the AES library call is modelled as an opaque pairing of the key
used and the serialized plaintext. -/
structure Cipher where
  key : String
  plaintext : String
deriving DecidableEq

/-- `encryptJSON` from part_013 lines 4-6; `serialized` stands for
`JSON.stringify(obj)`. -/
def encryptJSON (env : Option String) (serialized : String) : Cipher :=
  ⟨encKeyOf env, serialized⟩

/-- One record of `data/connectors.json`
(src/backend/src/db/connectorStore.js). -/
structure ConnectorRec where
  userId : String
  provider : String
  meta : String
  secret : Cipher
deriving DecidableEq

/-- `saveConnector` (connectorStore.js lines 23-38): reads the store, appends
a record whose `secret` is `encryptJSON(secretObj)`, writes the store back.
The returned value is the updated store contents. -/
def saveConnector (env : Option String) (store : List ConnectorRec)
    (userId provider meta secretObj : String) : List ConnectorRec :=
  store ++ [⟨userId, provider, meta, encryptJSON env secretObj⟩]

/-! ## Condition evaluator (FlowExecutor, src/unnamed/part_007 lines 327-351) -/

/-- `FlowExecutor.evaluateCondition` (part_007 lines 343-351).  The JS tests
`condition === "true" || !condition` first (the empty string is falsy), then
`condition === "false"`, else `Object.keys(data).length > 0`.  `dataKeys`
models `Object.keys(data)`. -/
def evaluateCondition (condition : String) (dataKeys : List String) : Bool :=
  if condition = "true" ∨ condition = "" then true
  else if condition = "false" then false
  else decide (0 < dataKeys.length)

/-- Output object of `executeCondition`: either `{ passed, condition }` or
the catch-branch object `{ passed: false, error }`. -/
inductive CondOutput where
  | result (passed : Bool) (condition : String)
  | evalError (passed : Bool) (error : String)
deriving DecidableEq

/-- `FlowExecutor.executeCondition` (part_007 lines 327-341), parameterized
over the evaluator so the try/catch is visible: a thrown evaluation error is
converted into the returned object `{ passed: false, error }` — the function
itself never throws, so the enclosing step completes. -/
def executeConditionWith (ev : String → List String → Except String Bool)
    (cfgCondition : Option String) (dataKeys : List String) :
    Except String CondOutput :=
  let condition := jsOrStr cfgCondition "true"
  match ev condition dataKeys with
  | .ok b => .ok (.result b condition)
  | .error m => .ok (.evalError false m)

/-- `executeCondition` with the evaluator the engine actually ships. -/
def executeCondition (cfgCondition : Option String) (dataKeys : List String) :
    Except String CondOutput :=
  executeConditionWith (fun c d => .ok (evaluateCondition c d)) cfgCondition dataKeys

/-- Reference evaluator following the specification words: the literal
strings return themselves, any other condition is true iff the input map is
non-empty (spec section 4.1, condition evaluation). -/
def specEvaluateCondition (condition : String) (dataKeys : List String) : Bool :=
  if condition = "true" then true
  else if condition = "false" then false
  else decide (0 < dataKeys.length)

/-- The reference evaluator amended by the counterexample: the empty
condition string is falsy in the source and also evaluates to true. -/
def specEvaluateConditionAmended (condition : String) (dataKeys : List String) : Bool :=
  match condition with
  | "true" => true
  | "" => true
  | "false" => false
  | _ => decide (0 < dataKeys.length)

/-! ## HTTP action (FlowExecutor.executeHttpAction, part_007 lines 261-295) -/

/-- Outcome of the `axios(...)` call as the source observes it: axios
resolves with a response for 2xx statuses (default `validateStatus`),
rejects with `error.response` set for any other received status, and
rejects with no `response` field on a transport error or on exceeding the
30 s timeout. -/
inductive HttpOutcome where
  | response (status : Nat) (body : String) (headers : String)
  | transportError (message : String)

/-- Node output object built by `executeHttpAction`: the success shape
`{ status, headers, data }` or the error-data shape
`{ status, error, headers }`. -/
inductive HttpOutput where
  | okData (status : Nat) (headers : String) (data : String)
  | errData (status : Nat) (error : String) (headers : String)
deriving DecidableEq

/-- `FlowExecutor.executeHttpAction` response handling (part_007 lines
271-294): a resolved (2xx) response returns `{status, headers, data}`; a
rejection carrying `error.response` returns `{status, error: body,
headers}`; a rejection without a response is re-thrown. -/
def executeHttpAction (outcome : HttpOutcome) : Except String HttpOutput :=
  match outcome with
  | .response s body headers =>
    if 200 ≤ s ∧ s < 300 then .ok (.okData s headers body)
    else .ok (.errData s body headers)
  | .transportError m => .error m

/-- Final status an `ExecutionStep` receives in `executeNode` (part_007
lines 206-230): `completed` when the node body returned, `failed` when it
threw. -/
inductive StepStatus where
  | completed
  | failed
deriving DecidableEq

/-- Step status resulting from an HTTP action node body. -/
def httpStepStatus (r : Except String HttpOutput) : StepStatus :=
  match r with
  | .ok _ => .completed
  | .error _ => .failed

/-- The URL `executeHttpAction` requests: `config.url ||
"https://api.example.com/endpoint"` (part_007 line 264).  The function has
no rejection branch: a request is issued on every invocation, so the
requested URL is always present. -/
def httpActionRequest (cfgUrl : Option String) : Option String :=
  some (jsOrStr cfgUrl "https://api.example.com/endpoint")

/-! ## Integration verification worker (src/backend/src/routes/dashboard.js
lines 290-363, `verifyAfterDelay`) -/

inductive IntegrationStatus where
  | pending
  | active
  | error
deriving DecidableEq

inductive NotifType where
  | info
  | error
deriving DecidableEq

/-- Outcome of the worker's `fetch(url, ...)` with its 6 s abort timer: a
response with some HTTP status, or a thrown failure (network error or
abort on timeout). -/
inductive FetchOutcome where
  | response (status : Nat)
  | failure (message : String)

/-- What `new URL(url)` yields: the pieces of the parsed URL the routes
read.  `parseUrl` arguments below model the platform URL parser; `none`
means parsing threw. -/
structure ParsedUrl where
  protocol : String
  hostname : String
deriving DecidableEq

/-- Effects of one verification run recorded against the integration row
and the org: the final status written together with `last_checked=now()`,
the Notification type created, and whether `integrations:update` was
broadcast. -/
structure VerifyResult where
  status : IntegrationStatus
  lastCheckedUpdated : Bool
  notifType : NotifType
  emitted : Bool
deriving DecidableEq

/-- URL choice of `verifyAfterDelay` (dashboard.js lines 296-302):
`let url = testUrl || null`, then the provider heuristic — a name whose
lowercasing contains "stripe" defaults to the Stripe charges endpoint. -/
def chooseProbeUrl (name : String) (testUrl : Option String) : Option String :=
  match jsOrNull testUrl with
  | some u => some u
  | none =>
    if strContains name.toLower "stripe" then
      some "https://api.stripe.com/v1/charges?limit=1"
    else none

/-- `verifyAfterDelay` (dashboard.js lines 292-363) after the 3 s deferral,
with the platform URL parser and the network call abstracted as arguments.
Every path updates the integration status together with `last_checked` and
broadcasts `integrations:update` (explicitly on the no-URL path, via the
`finally` block otherwise); fetch failures are absorbed by the catch. -/
def verifyAfterDelay (name : String) (testUrl : Option String)
    (parseUrl : String → Option ParsedUrl)
    (fetchGet : String → FetchOutcome) : VerifyResult :=
  match chooseProbeUrl name testUrl with
  | none => ⟨.error, true, .error, true⟩
  | some url =>
    match parseUrl url with
    | none => ⟨.error, true, .error, true⟩
    | some _ =>
      match fetchGet url with
      | .response s =>
        if 200 ≤ s ∧ s < 300 then ⟨.active, true, .info, true⟩
        else ⟨.error, true, .error, true⟩
      | .failure _ => ⟨.error, true, .error, true⟩

/-- The URL `verifyAfterDelay` actually passes to `fetch`, with the same
control flow as `verifyAfterDelay`: `none` when the worker takes the
no-valid-URL error path without fetching.  The source performs no check of
the parsed URL beyond parseability — the parse result itself is unused. -/
def verifyProbeTarget (name : String) (testUrl : Option String)
    (parseUrl : String → Option ParsedUrl) : Option String :=
  match chooseProbeUrl name testUrl with
  | none => none
  | some url =>
    match parseUrl url with
    | none => none
    | some _ => some url

/-! ## Sandbox fetch proxy guard (dashboard.js lines 398-418) -/

/-- The `isPrivate` host test of POST /dev/sandbox/fetch (dashboard.js
lines 407-416): the literal blocklist plus the prefix regexes for
10.0.0.0/8, 192.168.0.0/16, 172.16.0.0/12 (`^172\.(1[6-9]|2\d|3[0-1])\.`)
and 169.254.0.0/16. -/
def sandboxBlockedHost (host : String) : Bool :=
  host == "localhost" || host == "127.0.0.1" || host == "::1" ||
  host.startsWith "10." || host.startsWith "192.168." ||
  (List.range 16).any (fun i => host.startsWith ("172." ++ toString (16 + i) ++ ".")) ||
  host.startsWith "169.254."

/-- Decision the sandbox fetch route takes before issuing any request. -/
inductive SandboxDecision where
  | badRequestUrlRequired
  | badRequestInvalidUrl
  | badRequestScheme
  | forbiddenPrivate
  | proceed (url : ParsedUrl)
deriving DecidableEq

/-- The request-admission logic of POST /dev/sandbox/fetch (dashboard.js
lines 398-418): missing/empty url is a 400, an unparseable url is a 400,
a protocol failing `/^https?:$/` is a 400, a host failing the blocklist is
a 403; only then is the outbound request built. -/
def sandboxFetchCheck (url : Option String)
    (parseUrl : String → Option ParsedUrl) : SandboxDecision :=
  match jsOrNull url with
  | none => .badRequestUrlRequired
  | some u =>
    match parseUrl u with
    | none => .badRequestInvalidUrl
    | some p =>
      if !(p.protocol == "http:" || p.protocol == "https:") then .badRequestScheme
      else if sandboxBlockedHost p.hostname then .forbiddenPrivate
      else .proceed p

/-- Concrete URL-parser environment used by counterexamples: parses the one
URL the counterexample mentions, exactly as `new URL` would. -/
def demoParse : String → Option ParsedUrl := fun s =>
  if s = "http://localhost/x" then some ⟨"http:", "localhost"⟩ else none

/-! ## Execution read operations (src/backend/src/execution/ExecutionService.js
lines 69-129 and the router src/unnamed/part_003) -/

inductive ExecStatus where
  | running
  | completed
  | failed
  | cancelled
deriving DecidableEq

def isTerminal (s : ExecStatus) : Bool :=
  s == .completed || s == .failed || s == .cancelled

structure FlowRow where
  id : String
  orgId : String
  name : String
deriving DecidableEq

structure ExecRow where
  id : String
  flowId : String
  status : ExecStatus
deriving DecidableEq

structure StepRow where
  executionId : String
  nodeId : String
deriving DecidableEq

structure LogRow where
  executionId : String
  message : String
deriving DecidableEq

/-- The relational store restricted to the tables the execution reads
touch. -/
structure Db where
  flows : List FlowRow
  executions : List ExecRow
  steps : List StepRow
  logs : List LogRow

/-- The org a returned execution row belongs to, through its flow. -/
def flowOrgOf (db : Db) (e : ExecRow) : Option String :=
  (db.flows.find? (fun f => f.id == e.flowId)).map (fun f => f.orgId)

/-- `ExecutionService.getExecution` (lines 69-83): SELECT e.*, f.name FROM
flow_executions e JOIN flows f ON f.id = e.flow_id WHERE e.id = $1; throws
"Execution not found" on an empty result.  No org column appears in the
WHERE clause. -/
def getExecution (db : Db) (eid : String) : Except String (ExecRow × String) :=
  match (db.executions.filter (fun e => e.id == eid)).flatMap
      (fun e => (db.flows.filter (fun f => f.id == e.flowId)).map (fun f => (e, f.name))) with
  | [] => .error "Execution not found"
  | r :: _ => .ok r

/-- `ExecutionService.getExecutionSteps` (lines 85-94): SELECT * FROM
execution_steps WHERE execution_id = $1 (ORDER BY started_at not modelled;
the claim concerns which rows are returned). -/
def getExecutionSteps (db : Db) (eid : String) : List StepRow :=
  db.steps.filter (fun s => s.executionId == eid)

/-- `ExecutionService.getExecutionLogs` (lines 96-106): SELECT * FROM
execution_logs WHERE execution_id = $1 ... LIMIT $2. -/
def getExecutionLogs (db : Db) (eid : String) (limit : Nat) : List LogRow :=
  (db.logs.filter (fun l => l.executionId == eid)).take limit

/-- `ExecutionService.getFlowExecutions` (lines 108-118): SELECT * FROM
flow_executions WHERE flow_id = $1 ... LIMIT $2. -/
def getFlowExecutions (db : Db) (flowId : String) (limit : Nat) : List ExecRow :=
  (db.executions.filter (fun e => e.flowId == flowId)).take limit

/-- GET /api/executions/recent (part_003 lines 45-73): SELECT ... FROM
flow_executions e JOIN flows f ON f.id = e.flow_id WHERE f.org_id = $1 ...
LIMIT $2.  This is the one read that scopes by org. -/
def listRecentForOrg (db : Db) (orgId : String) (limit : Nat) :
    List (ExecRow × String) :=
  ((db.executions.flatMap (fun e =>
      (db.flows.filter (fun f => f.id == e.flowId && f.orgId == orgId)).map
        (fun f => (e, f.name))))).take limit

/-! ## Flow graphs (shape inside FlowVersion.graph, read by FlowExecutor) -/

/-- A graph node; the plan builder and the node loop read only `id` (other
fields such as type, kind and config are consumed by the per-node bodies
modelled separately above). -/
structure Node where
  id : String
deriving DecidableEq

/-- A graph edge `{from, to}`; `from` is a Lean keyword, hence `fromId` and
`toId`. -/
structure Edge where
  fromId : String
  toId : String
deriving DecidableEq

/-- The `{nodes, edges}` object of a flow version. -/
structure Graph where
  nodes : List Node
  edges : List Edge
deriving DecidableEq

/-! ## Execution state machine (ExecutionService.cancelExecution lines
120-129 and FlowExecutor.execute part_007 lines 30-104) -/

/-- `cancelExecution`: UPDATE flow_executions SET status = cancelled,
completed_at = now() WHERE id = $1 AND status = running — the WHERE clause
makes it a no-op on any non-running status. -/
def cancelExecution (s : ExecStatus) : ExecStatus :=
  if s = .running then .cancelled else s

/-- A persisted ExecutionStep as the engine writes it. -/
structure StepRec where
  nodeId : String
  status : StepStatus
deriving DecidableEq

/-- The part of the flow_executions row plus its steps that
`FlowExecutor.execute` mutates. -/
structure EngineState where
  status : ExecStatus
  steps : List StepRec
  errorMessage : Option String
deriving DecidableEq

/-- The success epilogue of `execute` (part_007 lines 66-73): UPDATE
flow_executions SET status = completed ... WHERE id = $2 — unconditional on
the current status. -/
def markCompletedSt (st : EngineState) : EngineState :=
  { st with status := .completed }

/-- The catch branch of `execute` (part_007 lines 84-91): UPDATE
flow_executions SET status = failed, error_message = $1 ... WHERE id = $3 —
also unconditional on the current status. -/
def markFailedSt (msg : String) (st : EngineState) : EngineState :=
  { st with status := .failed, errorMessage := some msg }

/-- The node loop of `FlowExecutor.execute` (part_007 lines 62-64) together
with `executeNode` (lines 150-231) and the epilogues: each planned node
appends an ExecutionStep (completed when its body returns, failed when it
throws, in which case the loop halts and the catch marks the execution
failed with the thrown message); an exhausted plan marks the execution
completed.  `outcome` abstracts whether a node body succeeds and `failMsg`
the message it throws.  The loop reads no cancellation flag: the source
consults the flow_executions status nowhere between nodes. -/
def execLoop (outcome : String → Bool) (failMsg : String → String)
    (plan : List Node) (st : EngineState) : EngineState :=
  match plan with
  | [] => markCompletedSt st
  | n :: rest =>
    if outcome n.id then
      execLoop outcome failMsg rest { st with steps := st.steps ++ [⟨n.id, .completed⟩] }
    else
      markFailedSt (failMsg n.id) { st with steps := st.steps ++ [⟨n.id, .failed⟩] }

/-! ## Execution plan builder (FlowExecutor.buildExecutionPlan, part_007
lines 106-148)

JavaScript `Map` values are modelled as functions `String → Option α` with
`none` for an absent key.  JavaScript numbers reached by the in-degree
arithmetic are an `Int` or `NaN` (`undefined + 1` and `NaN ± 1` are `NaN`),
modelled as `Option Int` with `none` for `NaN`. -/

/-- A JavaScript number that is either an integer or NaN. -/
abbrev JsNum := Option Int

/-- `adjacency` after the `nodes.forEach` initialization (line 112-115):
every node id maps to an empty array. -/
def initAdjacency (nodes : List Node) : String → Option (List String) :=
  fun k => if nodes.any (fun n => n.id == k) then some [] else none

/-- `inDegree` after the same initialization: every node id maps to 0. -/
def initInDegree (nodes : List Node) : String → Option JsNum :=
  fun k => if nodes.any (fun n => n.id == k) then some (some 0) else none

/-- How `buildExecutionPlan` can abort: the uncaught TypeError thrown by
`adjacency.get(edge.from).push(edge.to)` when `edge.from` names no node,
or the explicit cycle check. -/
inductive BuildErr where
  | typeError (message : String)
  | invalidGraph (message : String)
deriving DecidableEq

/-- Message of the TypeError thrown when `adjacency.get(edge.from)` is
undefined (the V8 text, punctuation elided). -/
def typeErrMsg : String := "Cannot read properties of undefined (reading push)"

/-- Message of the explicit cycle check (part_007 line 144). -/
def cycleMsg : String := "Flow contains cycles or disconnected nodes"

def buildErrMessage : BuildErr → String
  | .typeError m => m
  | .invalidGraph m => m

/-- One step of the `edges.forEach` at lines 118-121:
`adjacency.get(edge.from).push(edge.to)` throws when the entry is absent;
`inDegree.set(edge.to, inDegree.get(edge.to) + 1)` turns an absent entry
into NaN (`undefined + 1`) and keeps NaN as NaN. -/
def addEdge (st : (String → Option (List String)) × (String → Option JsNum))
    (e : Edge) :
    Except BuildErr ((String → Option (List String)) × (String → Option JsNum)) :=
  match st.1 e.fromId with
  | none => .error (.typeError typeErrMsg)
  | some lst =>
    .ok (fun k => if k = e.fromId then some (lst ++ [e.toId]) else st.1 k,
         fun k => if k = e.toId then
             (match st.2 e.toId with
              | some (some c) => some (some (c + 1))
              | _ => some none)
           else st.2 k)

/-- The adjacency-list and in-degree construction (lines 108-121). -/
def buildMaps (g : Graph) :
    Except BuildErr ((String → Option (List String)) × (String → Option JsNum)) :=
  g.edges.foldlM addEdge (initAdjacency g.nodes, initInDegree g.nodes)

/-- Body of the `neighbors.forEach` at lines 133-139: decrement the
neighbor's in-degree (NaN-absorbing), and when the stored value becomes
exactly 0, look the node up and append it to the work queue. -/
def decNeighbor (nodes : List Node)
    (st : List Node × (String → Option JsNum)) (nId : String) :
    List Node × (String → Option JsNum) :=
  let newVal : JsNum :=
    match st.2 nId with
    | some (some c) => some (c - 1)
    | _ => none
  let deg2 : String → Option JsNum := fun k => if k = nId then some newVal else st.2 k
  if newVal = some 0 then
    match nodes.find? (fun n => n.id == nId) with
    | some nn => (st.1 ++ [nn], deg2)
    | none => (st.1, deg2)
  else (st.1, deg2)

/-- Numeric size of a stored in-degree, for the termination measure. -/
def toNatV (v : Option JsNum) : Nat :=
  match v with
  | some (some c) => c.toNat
  | _ => 0

/-- Termination measure component: total positive in-degree mass over the
graph nodes. -/
def sumDeg (nodes : List Node) (m : String → Option JsNum) : Nat :=
  (nodes.map (fun n => toNatV (m n.id))).sum

theorem decNeighbor_measure (nodes : List Node)
    (st : List Node × (String → Option JsNum)) (nId : String) :
    (decNeighbor nodes st nId).1.length + sumDeg nodes (decNeighbor nodes st nId).2 ≤
      st.1.length + sumDeg nodes st.2 := by
  obtain ⟨q, m⟩ := st
  unfold decNeighbor
  simp only
  set newVal : JsNum :=
    (match m nId with
     | some (some c) => some (c - 1)
     | _ => none) with hnew
  set deg2 : String → Option JsNum := fun k => if k = nId then some newVal else m k with hdeg
  have hpoint : ∀ n ∈ nodes, toNatV (deg2 n.id) ≤ toNatV (m n.id) := by
    intro n _
    by_cases h : n.id = nId
    · subst h
      simp only [hdeg, if_pos rfl]
      match hv : m n.id with
      | some (some c) =>
        simp only [hnew, hv, toNatV]
        omega
      | some none => simp [hnew, hv, toNatV]
      | none => simp [hnew, hv, toNatV]
    · simp [hdeg, h]
  have hsum : sumDeg nodes deg2 ≤ sumDeg nodes m :=
    List.sum_le_sum (by intro n hn; exact hpoint n hn)
  by_cases hz : newVal = some 0
  · simp only [if_pos hz]
    cases hf : nodes.find? (fun n => n.id == nId) with
    | some nn =>
      simp only [hf]
      -- a push: the popped entry dropped from 1 to 0, paying for the push
      have hmem : nn ∈ nodes ∧ nn.id = nId := by
        have h1 := List.find?_some hf
        have h2 := List.mem_of_find?_eq_some hf
        exact ⟨h2, by simpa using h1⟩
      have hone : m nId = some (some 1) := by
        match hv : m nId with
        | some (some c) =>
          have : (some (c - 1) : JsNum) = some 0 := by
            rw [hnew] at hz; simpa [hv] using hz
          have : c = 1 := by
            have := Option.some.inj this
            omega
          simp [hv, this]
        | some none => rw [hnew] at hz; simp [hv] at hz
        | none => rw [hnew] at hz; simp [hv] at hz
      have hstrict : sumDeg nodes deg2 + 1 ≤ sumDeg nodes m := by
        have hlt : sumDeg nodes deg2 < sumDeg nodes m := by
          apply List.sum_lt_sum
          · intro n hn; exact hpoint n hn
          · refine ⟨nn, hmem.1, ?_⟩
            rw [hmem.2]
            simp [hdeg, hone, hz, toNatV]
        omega
      simp only [List.length_append, List.length_cons, List.length_nil]
      omega
    | none =>
      simp only [hf]
      omega
  · simp only [if_neg hz]
    omega

theorem foldDec_measure (nodes : List Node) (ns : List String) :
    ∀ st : List Node × (String → Option JsNum),
      ((ns.foldl (decNeighbor nodes) st).1.length +
        sumDeg nodes (ns.foldl (decNeighbor nodes) st).2) ≤
      st.1.length + sumDeg nodes st.2 := by
  induction ns with
  | nil => intro st; simp
  | cons a rest ih =>
    intro st
    calc ((rest.foldl (decNeighbor nodes) (decNeighbor nodes st a)).1.length +
            sumDeg nodes (rest.foldl (decNeighbor nodes) (decNeighbor nodes st a)).2)
        ≤ (decNeighbor nodes st a).1.length + sumDeg nodes (decNeighbor nodes st a).2 :=
          ih (decNeighbor nodes st a)
      _ ≤ st.1.length + sumDeg nodes st.2 := decNeighbor_measure nodes st a

/-- The topological-sort while loop (lines 128-140): pop the queue head,
append it to the plan, decrement every listed successor, enqueueing those
that reach in-degree 0. -/
def kahnLoop (nodes : List Node) (adj : String → Option (List String)) :
    List Node → (String → Option JsNum) → List Node → List Node
  | [], _, plan => plan
  | q :: qs, m, plan =>
    let st := ((adj q.id).getD []).foldl (decNeighbor nodes) (qs, m)
    kahnLoop nodes adj st.1 st.2 (plan ++ [q])
termination_by queue m _ => queue.length + sumDeg nodes m
decreasing_by
  have h := foldDec_measure nodes ((adj q.id).getD []) (qs, m)
  simp only at h
  simp only [List.length_cons]
  omega

/-- `buildExecutionPlan` up to (excluding) the final cycle check: build the
maps, seed the queue with the zero-in-degree nodes in graph order
(`nodes.filter`, line 124), and run the loop. -/
def planOf (g : Graph) : Except BuildErr (List Node) :=
  (buildMaps g).map (fun st =>
    kahnLoop g.nodes st.1
      (g.nodes.filter (fun n => decide (st.2 n.id = some (some 0)))) st.2 [])

/-- `FlowExecutor.buildExecutionPlan` (lines 106-148), with the final
`executionPlan.length !== nodes.length` check. -/
def buildExecutionPlan (g : Graph) : Except BuildErr (List Node) :=
  match planOf g with
  | .error e => .error e
  | .ok plan =>
    if plan.length ≠ g.nodes.length then .error (.invalidGraph cycleMsg)
    else .ok plan

/-- `FlowExecutor.execute` (part_007 lines 30-104) after the graph is
loaded: build the plan — a thrown build error reaches the catch, which
marks the execution failed with the thrown message and creates no steps —
then run the node loop. -/
def executeGraph (outcome : String → Bool) (failMsg : String → String)
    (g : Graph) (st : EngineState) : EngineState :=
  match buildExecutionPlan g with
  | .error e => markFailedSt (buildErrMessage e) st
  | .ok plan => execLoop outcome failMsg plan st

/-! ## Claim C5 — Secret Vault key absence -/

/-- Claim C5, counterexample: with `SECRETS_ENC_KEY` absent from the
environment, `saveConnector` does not fail closed — it persists the
credential record, encrypted under the hardcoded fallback key
`dev-only-change-me-please`. -/
theorem saveConnector_persists_without_key :
    saveConnector none [] "u1" "flutterwave" "m" "sec" =
      [⟨"u1", "flutterwave", "m", ⟨"dev-only-change-me-please", "sec"⟩⟩] := by
  rfl

/-- Claim C5 (amended): if the Secret Vault key is absent (or empty) at
startup, secret writes do not fail — `encryptJSON` falls back to the
hardcoded key `dev-only-change-me-please` and every `saveConnector` call
appends exactly one record encrypted under the selected key. -/
theorem saveConnector_falls_back_to_default_key :
    (∀ env store u p m s,
      saveConnector env store u p m s = store ++ [⟨u, p, m, ⟨encKeyOf env, s⟩⟩]) ∧
    encKeyOf none = "dev-only-change-me-please" ∧
    encKeyOf (some "") = "dev-only-change-me-please" := by
  refine ⟨fun env store u p m s => rfl, rfl, rfl⟩

/-! ## Claim C9 — condition evaluator -/

/-- Claim C9, counterexample: the empty condition string is neither the
literal "true" nor "false", yet it evaluates to `true` on an empty input
map (it is falsy in `condition === "true" || !condition`), where the
reference evaluator of the claim returns `false`. -/
theorem evaluateCondition_empty_string :
    evaluateCondition "" [] = true ∧ specEvaluateCondition "" [] = false ∧
    "" ≠ "true" ∧ "" ≠ "false" ∧ ([] : List String).length = 0 := by
  refine ⟨rfl, rfl, by decide, by decide, rfl⟩

/-- Claim C9 (amended): the evaluator is total and matches the reference
definition amended with the falsy case — the literal "true" and the empty
string evaluate to true, the literal "false" to false, and any other
condition to whether the input map is non-empty; `executeCondition` never
throws (so the step never fails through it), and an evaluator error is
returned as the output object `{ passed: false, error }`. -/
theorem evaluateCondition_matches_amended_reference :
    (∀ c d, evaluateCondition c d = specEvaluateConditionAmended c d) ∧
    (∀ ev cfg d, ∃ out, executeConditionWith ev cfg d = .ok out) ∧
    (∀ ev cfg d m, ev (jsOrStr cfg "true") d = .error m →
      executeConditionWith ev cfg d = .ok (.evalError false m)) := by
  refine ⟨?_, ?_, ?_⟩
  · intro c d
    by_cases h1 : c = "true"
    · simp [evaluateCondition, specEvaluateConditionAmended, h1]
    · by_cases h2 : c = ""
      · simp [evaluateCondition, specEvaluateConditionAmended, h1, h2]
      · by_cases h3 : c = "false"
        · simp [evaluateCondition, specEvaluateConditionAmended, h1, h2, h3]
        · simp [evaluateCondition, specEvaluateConditionAmended, h1, h2, h3]
  · intro ev cfg d
    cases h : ev (jsOrStr cfg "true") d with
    | ok b => exact ⟨.result b (jsOrStr cfg "true"), by simp [executeConditionWith, h]⟩
    | error m => exact ⟨.evalError false m, by simp [executeConditionWith, h]⟩
  · intro ev cfg d m h
    simp [executeConditionWith, h]

/-- Claim C9 witness: the error-absorption clause at a concrete throwing
evaluator. -/
theorem evaluateCondition_matches_amended_reference_witness :
    executeConditionWith (fun _ _ => .error "boom") (some "x") ["k"] =
      .ok (.evalError false "boom") :=
  evaluateCondition_matches_amended_reference.2.2
    (fun _ _ => .error "boom") (some "x") ["k"] "boom" rfl

/-! ## Claim C7 — HTTP action error asymmetry -/

/-- Claim C7: a non-2xx HTTP response is data — the node returns
`{status, error: body, headers}` and the step completes; a 2xx response
returns `{status, headers, data}`; a transport error (including the 30 s
timeout) is re-thrown and the step fails. -/
theorem executeHttpAction_error_asymmetry :
    (∀ s b h, ¬(200 ≤ s ∧ s < 300) →
      executeHttpAction (.response s b h) = .ok (.errData s b h) ∧
      httpStepStatus (executeHttpAction (.response s b h)) = .completed) ∧
    (∀ s b h, (200 ≤ s ∧ s < 300) →
      executeHttpAction (.response s b h) = .ok (.okData s h b)) ∧
    (∀ m, executeHttpAction (.transportError m) = .error m ∧
      httpStepStatus (executeHttpAction (.transportError m)) = .failed) := by
  refine ⟨?_, ?_, ?_⟩
  · intro s b h hs
    simp [executeHttpAction, hs, httpStepStatus]
  · intro s b h hs
    simp [executeHttpAction, hs]
  · intro m
    exact ⟨rfl, rfl⟩

/-- Claim C7 witness: a 404 response completes the step with the
error-shaped output; a timeout fails it. -/
theorem executeHttpAction_error_asymmetry_witness :
    (executeHttpAction (.response 404 "nf" "h") = .ok (.errData 404 "nf" "h") ∧
      httpStepStatus (executeHttpAction (.response 404 "nf" "h")) = .completed) ∧
    executeHttpAction (.response 200 "ok" "h") = .ok (.okData 200 "h" "ok") ∧
    executeHttpAction (.transportError "timeout of 30000ms exceeded") =
      .error "timeout of 30000ms exceeded" :=
  ⟨executeHttpAction_error_asymmetry.1 404 "nf" "h" (by omega),
   executeHttpAction_error_asymmetry.2.1 200 "ok" "h" (by omega),
   (executeHttpAction_error_asymmetry.2.2 "timeout of 30000ms exceeded").1⟩

/-! ## Claims C3 and C4 — cancellation -/

/-- Claim C3, counterexample: the executor finishing its node loop after a
concurrent cancellation overwrites the terminal status — its final UPDATE
has no status guard, so a `cancelled` execution becomes `completed`. -/
theorem execLoop_overwrites_cancelled :
    execLoop (fun _ => true) (fun _ => "err") [] ⟨.cancelled, [], none⟩ =
      ⟨.completed, [], none⟩ ∧ isTerminal .cancelled = true := by
  exact ⟨rfl, rfl⟩

/-- Claim C3 (amended): terminal states are sticky only under
`CancelExecution`, whose WHERE clause makes it a no-op on any non-running
status; the executor's final update is unconditional — after the node loop
the execution status is always `completed` or `failed`, whatever it was
before, so a concurrent cancellation is overwritten. -/
theorem terminal_sticky_only_for_cancel :
    (∀ s, isTerminal s = true → cancelExecution s = s) ∧
    (∀ outcome failMsg plan st,
      (execLoop outcome failMsg plan st).status = .completed ∨
      (execLoop outcome failMsg plan st).status = .failed) := by
  constructor
  · intro s h
    cases s <;> simp_all [isTerminal, cancelExecution]
  · intro outcome failMsg plan
    induction plan with
    | nil => intro st; left; rfl
    | cons n rest ih =>
      intro st
      unfold execLoop
      by_cases h : outcome n.id
      · simpa [h] using ih _
      · simp [h, markFailedSt]

/-- Claim C3 witness: stickiness of `cancelExecution` at `completed`, and
the unconditional epilogue at a concrete run. -/
theorem terminal_sticky_only_for_cancel_witness :
    cancelExecution .completed = .completed ∧
    ((execLoop (fun _ => true) (fun _ => "e") [⟨"n1"⟩] ⟨.running, [], none⟩).status = .completed ∨
      (execLoop (fun _ => true) (fun _ => "e") [⟨"n1"⟩] ⟨.running, [], none⟩).status = .failed) :=
  ⟨terminal_sticky_only_for_cancel.1 .completed rfl,
   terminal_sticky_only_for_cancel.2 (fun _ => true) (fun _ => "e") [⟨"n1"⟩] ⟨.running, [], none⟩⟩

/-- Claim C4, counterexample: with the execution already `cancelled`, the
engine still executes the next node of the plan and records an
ExecutionStep for it — contradicting "no ExecutionStep is created for any
later node" after cancellation. -/
theorem execLoop_runs_after_cancel :
    execLoop (fun _ => true) (fun _ => "e") [⟨"n2"⟩]
        ⟨.cancelled, [⟨"n1", .completed⟩], none⟩ =
      ⟨.completed, [⟨"n1", .completed⟩, ⟨"n2", .completed⟩], none⟩ := by
  rfl

/-- Claim C4 (amended): the engine never reads the cancellation flag — the
node loop behaves identically whatever the stored execution status is, and
with the execution marked `cancelled` it still creates a completed
ExecutionStep for every remaining node of the plan before overwriting the
status. -/
theorem execLoop_ignores_cancellation :
    (∀ outcome failMsg plan s1 s2 steps m,
      execLoop outcome failMsg plan ⟨s1, steps, m⟩ =
        execLoop outcome failMsg plan ⟨s2, steps, m⟩) ∧
    (∀ failMsg plan steps m,
      (execLoop (fun _ => true) failMsg plan ⟨.cancelled, steps, m⟩).steps =
        steps ++ plan.map (fun n => ⟨n.id, .completed⟩)) := by
  constructor
  · intro outcome failMsg plan
    induction plan with
    | nil => intro s1 s2 steps m; rfl
    | cons n rest ih =>
      intro s1 s2 steps m
      unfold execLoop
      by_cases h : outcome n.id
      · simpa [h] using ih s1 s2 (steps ++ [⟨n.id, .completed⟩]) m
      · simp [h, markFailedSt]
  · intro failMsg plan
    induction plan with
    | nil => intro steps m; simp [execLoop, markCompletedSt]
    | cons n rest ih =>
      intro steps m
      have h2 := ih (steps ++ [⟨n.id, .completed⟩]) m
      rw [List.append_assoc] at h2
      simpa [execLoop] using h2

/-- Claim C4 witness: status-independence of the loop at a concrete plan,
and the steps created after a cancellation for a concrete two-node rest of
plan. -/
theorem execLoop_ignores_cancellation_witness :
    execLoop (fun _ => true) (fun _ => "e") [⟨"n2"⟩] ⟨.cancelled, [], none⟩ =
      execLoop (fun _ => true) (fun _ => "e") [⟨"n2"⟩] ⟨.running, [], none⟩ ∧
    (execLoop (fun _ => true) (fun _ => "e") [⟨"n2"⟩, ⟨"n3"⟩]
        ⟨.cancelled, [], none⟩).steps = [⟨"n2", .completed⟩, ⟨"n3", .completed⟩] := by
  constructor
  · exact execLoop_ignores_cancellation.1 (fun _ => true) (fun _ => "e") [⟨"n2"⟩]
      .cancelled .running [] none
  · simpa using execLoop_ignores_cancellation.2 (fun _ => "e") [⟨"n2"⟩, ⟨"n3"⟩] [] none

/-! ## Claim C1 — SSRF guard coverage -/

/-- Claim C1, counterexample: the Integration Verification Worker performs
no host check — given a localhost test URL (which the platform URL parser
accepts), the probe is sent to it, although the repository's own sandbox
blocklist classifies the host as blocked.  Nothing rejects the URL before
the `fetch`. -/
theorem verify_probe_sent_to_localhost :
    verifyProbeTarget "Custom" (some "http://localhost/x") demoParse =
      some "http://localhost/x" ∧
    demoParse "http://localhost/x" = some ⟨"http:", "localhost"⟩ ∧
    sandboxBlockedHost "localhost" = true := by
  refine ⟨rfl, rfl, by decide⟩

/-- Claim C1 (amended): host and scheme rejection exists only in the
sandbox fetch proxy — a POST /dev/sandbox/fetch request proceeds only with
an http/https scheme and an unblocked host; the verification worker sends
its probe to any chosen URL the platform parser accepts, with no host or
scheme check, and the flow engine's HTTP action issues its request
unconditionally. -/
theorem ssrf_guard_only_in_sandbox :
    (∀ s parse q, sandboxFetchCheck (some s) parse = .proceed q →
      (q.protocol == "http:" || q.protocol == "https:") = true ∧
      sandboxBlockedHost q.hostname = false) ∧
    (∀ name u parse, u ≠ "" → (parse u).isSome →
      verifyProbeTarget name (some u) parse = some u) ∧
    (∀ cfgUrl, (httpActionRequest cfgUrl).isSome = true) := by
  refine ⟨?_, ?_, fun _ => rfl⟩
  · intro s parse q h
    unfold sandboxFetchCheck jsOrNull at h
    by_cases hs : s = ""
    · simp [hs] at h
    · simp only [hs, if_neg, ite_false] at h
      cases hp : parse s with
      | none => rw [hp] at h; exact absurd h (by simp)
      | some p =>
        rw [hp] at h
        by_cases hproto : (p.protocol == "http:" || p.protocol == "https:") = true
        · by_cases hblock : sandboxBlockedHost p.hostname = true
          · simp [hproto, hblock] at h
          · simp only [hproto, Bool.not_true, hblock] at h
            simp only [Bool.not_eq_true] at hblock
            simp at h
            subst h
            exact ⟨hproto, hblock⟩
        · simp [hproto] at h
  · intro name u parse hu hp
    unfold verifyProbeTarget chooseProbeUrl jsOrNull
    simp only [hu, ite_false, if_neg]
    cases hpp : parse u with
    | none => rw [hpp] at hp; simp at hp
    | some p => simp

/-- Claim C1 witness: the worker probe clause at a concrete non-empty,
parseable URL. -/
theorem ssrf_guard_only_in_sandbox_witness :
    verifyProbeTarget "Custom" (some "http://localhost/x") demoParse =
      some "http://localhost/x" ∧
    (httpActionRequest none).isSome = true :=
  ⟨ssrf_guard_only_in_sandbox.2.1 "Custom" "http://localhost/x" demoParse
      (by decide) (by rw [demoParse]; decide),
   ssrf_guard_only_in_sandbox.2.2 none⟩

/-! ## Claim C2 — org scoping of execution reads -/

/-- Concrete store for the org-scoping counterexample: one flow owned by
org1, one execution of it, one step, one log. -/
def dbX : Db :=
  ⟨[⟨"f1", "org1", "Pay"⟩], [⟨"e1", "f1", .completed⟩], [⟨"e1", "n1"⟩],
    [⟨"e1", "started"⟩]⟩

/-- Claim C2, counterexample: a caller from org2 invoking the execution
reads on execution e1 — whose flow belongs to org1 — receives the
execution, its steps, its logs and the flow execution list anyway: none of
the four queries constrains the flow org. -/
theorem execution_reads_cross_org :
    getExecution dbX "e1" = .ok (⟨"e1", "f1", .completed⟩, "Pay") ∧
    getExecutionSteps dbX "e1" = [⟨"e1", "n1"⟩] ∧
    getExecutionLogs dbX "e1" 100 = [⟨"e1", "started"⟩] ∧
    getFlowExecutions dbX "f1" 20 = [⟨"e1", "f1", .completed⟩] ∧
    flowOrgOf dbX ⟨"e1", "f1", .completed⟩ = some "org1" ∧ "org1" ≠ "org2" := by
  refine ⟨by rfl, by rfl, by rfl, by rfl, by rfl, by decide⟩

/-- Claim C2 (amended): of the execution read operations only
`ListRecentForOrg` joins through Flow with an org filter; `GetExecution`,
`GetSteps`, `GetLogs` and `ListFlowExecutions` select rows by execution or
flow id alone, with no constraint relating the flow to any caller org. -/
theorem execution_reads_org_scoping :
    (∀ db orgId lim e n, (e, n) ∈ listRecentForOrg db orgId lim →
      ∃ f, f ∈ db.flows ∧ f.id = e.flowId ∧ f.orgId = orgId ∧ f.name = n) ∧
    (∀ db eid e n, getExecution db eid = .ok (e, n) →
      e.id = eid ∧ e ∈ db.executions ∧
      ∃ f, f ∈ db.flows ∧ f.id = e.flowId ∧ f.name = n) ∧
    (∀ db eid s, s ∈ getExecutionSteps db eid → s.executionId = eid) ∧
    (∀ db eid lim l, l ∈ getExecutionLogs db eid lim → l.executionId = eid) ∧
    (∀ db fid lim e, e ∈ getFlowExecutions db fid lim → e.flowId = fid) := by
  refine ⟨?_, ?_, ?_, ?_, ?_⟩
  · intro db orgId lim e n h
    have h1 : (e, n) ∈ db.executions.flatMap (fun e =>
        (db.flows.filter (fun f => f.id == e.flowId && f.orgId == orgId)).map
          (fun f => (e, f.name))) := List.take_subset _ _ h
    rw [List.mem_flatMap] at h1
    obtain ⟨e2, _, h3⟩ := h1
    rw [List.mem_map] at h3
    obtain ⟨f, hf, hpair⟩ := h3
    rw [List.mem_filter] at hf
    obtain ⟨hfmem, hcond⟩ := hf
    have he : e2 = e := congrArg Prod.fst hpair
    have hn : f.name = n := congrArg Prod.snd hpair
    subst he
    simp only [Bool.and_eq_true, beq_iff_eq] at hcond
    exact ⟨f, hfmem, hcond.1, hcond.2, hn⟩
  · intro db eid e n h
    unfold getExecution at h
    cases hl : (db.executions.filter (fun e => e.id == eid)).flatMap
        (fun e => (db.flows.filter (fun f => f.id == e.flowId)).map
          (fun f => (e, f.name))) with
    | nil => rw [hl] at h; exact absurd h (by simp)
    | cons r t =>
      rw [hl] at h
      simp only [Except.ok.injEq] at h
      have hmem : (e, n) ∈ (db.executions.filter (fun e => e.id == eid)).flatMap
          (fun e => (db.flows.filter (fun f => f.id == e.flowId)).map
            (fun f => (e, f.name))) := by
        rw [hl, ← h]
        exact List.mem_cons_self r t
      rw [List.mem_flatMap] at hmem
      obtain ⟨e2, he2, h3⟩ := hmem
      rw [List.mem_map] at h3
      obtain ⟨f, hf, hpair⟩ := h3
      rw [List.mem_filter] at he2 hf
      have he : e2 = e := congrArg Prod.fst hpair
      have hn : f.name = n := congrArg Prod.snd hpair
      subst he
      simp only [beq_iff_eq] at he2 hf
      exact ⟨he2.2, he2.1, f, hf.1, hf.2, hn⟩
  · intro db eid s h
    rw [getExecutionSteps, List.mem_filter] at h
    simpa using h.2
  · intro db eid lim l h
    rw [getExecutionLogs] at h
    have h2 := List.take_subset _ _ h
    rw [List.mem_filter] at h2
    simpa using h2.2
  · intro db fid lim e h
    rw [getFlowExecutions] at h
    have h2 := List.take_subset _ _ h
    rw [List.mem_filter] at h2
    simpa using h2.2

/-- Claim C2 witness: the org-scoped read and the id-only reads applied on
the concrete store. -/
theorem execution_reads_org_scoping_witness :
    (∃ f, f ∈ dbX.flows ∧ f.id = "f1" ∧ f.orgId = "org1" ∧ f.name = "Pay") ∧
    ("e1" : String) = "e1" ∧
    (⟨"e1", "n1"⟩ : StepRow).executionId = "e1" := by
  refine ⟨?_, rfl, ?_⟩
  · exact execution_reads_org_scoping.1 dbX "org1" 20 ⟨"e1", "f1", .completed⟩ "Pay"
      (by decide)
  · exact execution_reads_org_scoping.2.2.1 dbX "e1" ⟨"e1", "n1"⟩ (by decide)

/-! ## Claim C8 — verification worker outcomes -/

/-- A verification probe succeeds: a URL was chosen, the platform parser
accepts it, and its GET returned a 2xx status within the timeout. -/
def probeGood (name : String) (testUrl : Option String)
    (parseUrl : String → Option ParsedUrl) (fetchGet : String → FetchOutcome) : Prop :=
  ∃ u, chooseProbeUrl name testUrl = some u ∧ (parseUrl u).isSome = true ∧
    ∃ s, fetchGet u = .response s ∧ 200 ≤ s ∧ s < 300

/-- Characterization of a verification run: it ends in exactly the active
record or the error record, according to probe success. -/
theorem verifyAfterDelay_cases (name : String) (testUrl : Option String)
    (parseUrl : String → Option ParsedUrl) (fetchGet : String → FetchOutcome) :
    (verifyAfterDelay name testUrl parseUrl fetchGet = ⟨.active, true, .info, true⟩ ∧
      probeGood name testUrl parseUrl fetchGet) ∨
    (verifyAfterDelay name testUrl parseUrl fetchGet = ⟨.error, true, .error, true⟩ ∧
      ¬ probeGood name testUrl parseUrl fetchGet) := by
  unfold verifyAfterDelay probeGood
  cases hu : chooseProbeUrl name testUrl with
  | none =>
    right
    refine ⟨rfl, ?_⟩
    rintro ⟨u, h1, -⟩
    simp at h1
  | some u =>
    dsimp only
    cases hp : parseUrl u with
    | none =>
      right
      refine ⟨rfl, ?_⟩
      rintro ⟨u2, h1, h2, -⟩
      have : u = u2 := Option.some.inj h1
      rw [← this, hp] at h2
      simp at h2
    | some p =>
      dsimp only
      cases hf : fetchGet u with
      | response s =>
        by_cases hs : 200 ≤ s ∧ s < 300
        · left
          refine ⟨by simp [hs], ?_⟩
          exact ⟨u, rfl, by rw [hp]; rfl, s, hf, hs.1, hs.2⟩
        · right
          refine ⟨by simp [hs], ?_⟩
          rintro ⟨u2, h1, h2, s2, h3, h4, h5⟩
          have : u = u2 := Option.some.inj h1
          rw [← this, hf] at h3
          cases h3
          exact hs ⟨h4, h5⟩
      | failure m =>
        right
        refine ⟨rfl, ?_⟩
        rintro ⟨u2, h1, h2, s2, h3, h4, h5⟩
        have : u = u2 := Option.some.inj h1
        rw [← this, hf] at h3
        simp at h3

/-- Claim C8: every verification run ends with the integration status set
to exactly one of `active` or `error` — `active` precisely when a probe URL
was chosen, the parser accepted it, and its GET returned 2xx within the
timeout — `last_checked` is updated and `integrations:update` broadcast on
every path, the Notification type matches the outcome (info for active,
error otherwise), and the worker is total over all fetch outcomes
(timeout, network failure, no valid URL included), so no provider error
propagates to the API caller. -/
theorem verifyAfterDelay_outcomes :
    ∀ name testUrl parseUrl fetchGet,
      ((verifyAfterDelay name testUrl parseUrl fetchGet).status = .active ∨
        (verifyAfterDelay name testUrl parseUrl fetchGet).status = .error) ∧
      (verifyAfterDelay name testUrl parseUrl fetchGet).lastCheckedUpdated = true ∧
      (verifyAfterDelay name testUrl parseUrl fetchGet).emitted = true ∧
      ((verifyAfterDelay name testUrl parseUrl fetchGet).status = .active ↔
        probeGood name testUrl parseUrl fetchGet) ∧
      ((verifyAfterDelay name testUrl parseUrl fetchGet).notifType = .info ↔
        (verifyAfterDelay name testUrl parseUrl fetchGet).status = .active) := by
  intro name testUrl parseUrl fetchGet
  rcases verifyAfterDelay_cases name testUrl parseUrl fetchGet with ⟨he, hg⟩ | ⟨he, hg⟩ <;>
    rw [he]
  · exact ⟨Or.inl rfl, rfl, rfl, by simp [hg], by simp⟩
  · exact ⟨Or.inr rfl, rfl, rfl, by simp [hg], by simp⟩

/-! ## Correctness development for the plan builder (claims C6, C10) -/

/-- Number of edges into `v` whose source is not yet planned: the meaning
of the stored in-degree of a valid node during the loop. -/
def remPredE (edges : List Edge) (planIds : List String) (v : String) : Nat :=
  (edges.filter (fun e => e.toId == v && !(decide (e.fromId ∈ planIds)))).length

/-- Successor list of `u` as the adjacency construction records it. -/
def tosFrom (edges : List Edge) (u : String) : List String :=
  (edges.filter (fun e => e.fromId == u)).map Edge.toId

/-- What the adjacency map equals after processing the edge list `pre`. -/
def adjSpec (nodes : List Node) (pre : List Edge) : String → Option (List String) :=
  fun k => if nodes.any (fun n => n.id == k) then some (tosFrom pre k) else none

/-- What the in-degree map equals after processing the edge list `pre`:
valid ids count their incoming edges; an id that is no node but was the
target of some processed edge holds NaN. -/
def degSpec (nodes : List Node) (pre : List Edge) : String → Option JsNum :=
  fun k =>
    if nodes.any (fun n => n.id == k) then
      some (some ((pre.filter (fun e => e.toId == k)).length : Int))
    else if pre.any (fun e => e.toId == k) then some none
    else none

/-- A rank function witnessing acyclicity of the effective edge set (edges
whose target names a node; a target naming no node never constrains the
loop). -/
def TopoOrdered (g : Graph) (rank : String → Nat) : Prop :=
  ∀ e ∈ g.edges, (g.nodes.any (fun n => n.id == e.toId)) = true →
    rank e.fromId < rank e.toId

/-- The graph admits a topological rank on its effective edges. -/
def AcyclicG (g : Graph) : Prop :=
  ∃ rank, TopoOrdered g rank

theorem length_filter_mono {α : Type} (l : List α) (p q : α → Bool)
    (h : ∀ a ∈ l, p a = true → q a = true) :
    (l.filter p).length ≤ (l.filter q).length := by
  induction l with
  | nil => simp
  | cons a t ih =>
    have ht : ∀ b ∈ t, p b = true → q b = true := fun b hb => h b (List.mem_cons_of_mem a hb)
    by_cases hp : p a = true
    · have hq := h a (List.mem_cons_self a t) hp
      simp only [List.filter_cons, hp, hq, if_pos, List.length_cons]
      exact Nat.succ_le_succ (ih ht)
    · simp only [List.filter_cons, hp]
      by_cases hq : q a = true
      · simp only [hq, if_pos, List.length_cons]
        exact Nat.le_succ_of_le (ih ht)
      · simp only [hq]
        simp only [Bool.false_eq_true, if_false]
        exact ih ht

theorem remPred_mono (edges : List Edge) (l1 l2 : List String) (v : String)
    (h : ∀ x, x ∈ l1 → x ∈ l2) :
    remPredE edges l2 v ≤ remPredE edges l1 v := by
  apply length_filter_mono
  intro e _ he
  simp only [Bool.and_eq_true, Bool.not_eq_true', decide_eq_false_iff_not] at he ⊢
  exact ⟨he.1, fun hc => he.2 (h _ hc)⟩

theorem remPred_pop (edges : List Edge) (planIds : List String) (u v : String)
    (hu : u ∉ planIds) :
    remPredE edges planIds v =
      remPredE edges (planIds ++ [u]) v +
        (edges.filter (fun e => e.fromId == u && e.toId == v)).length := by
  induction edges with
  | nil => simp [remPredE]
  | cons e t ih =>
    simp only [remPredE, List.filter_cons] at ih ⊢
    by_cases h1 : e.toId = v
    · by_cases h2 : e.fromId = u
      · have c1 : (e.toId == v && !(decide (e.fromId ∈ planIds))) = true := by
          simp [h1, h2, hu]
        have c2 : (e.toId == v && !(decide (e.fromId ∈ planIds ++ [u]))) = false := by
          simp [h1, h2]
        have c3 : (e.fromId == u && e.toId == v) = true := by simp [h1, h2]
        simp only [c1, c2, c3, if_pos, List.length_cons, Bool.false_eq_true, if_false]
        omega
      · have c3 : (e.fromId == u && e.toId == v) = false := by simp [h2]
        by_cases h3 : e.fromId ∈ planIds
        · have c1 : (e.toId == v && !(decide (e.fromId ∈ planIds))) = false := by
            simp [h3]
          have c2 : (e.toId == v && !(decide (e.fromId ∈ planIds ++ [u]))) = false := by
            simp [h3]
          simp only [c1, c2, c3, Bool.false_eq_true, if_false]
          exact ih
        · have c1 : (e.toId == v && !(decide (e.fromId ∈ planIds))) = true := by
            simp [h1, h3]
          have c2 : (e.toId == v && !(decide (e.fromId ∈ planIds ++ [u]))) = true := by
            simp [h1, h3, h2]
          simp only [c1, c2, c3, if_pos, List.length_cons, Bool.false_eq_true, if_false]
          omega
    · have c1 : (e.toId == v && !(decide (e.fromId ∈ planIds))) = false := by simp [h1]
      have c2 : (e.toId == v && !(decide (e.fromId ∈ planIds ++ [u]))) = false := by
        simp [h1]
      have c3 : (e.fromId == u && e.toId == v) = false := by simp [h1]
      simp only [c1, c2, c3, Bool.false_eq_true, if_false]
      exact ih

theorem remPred_zero_iff (edges : List Edge) (planIds : List String) (v : String) :
    remPredE edges planIds v = 0 ↔
      ∀ e ∈ edges, e.toId = v → e.fromId ∈ planIds := by
  rw [remPredE, List.length_eq_zero, List.filter_eq_nil_iff]
  constructor
  · intro h e he hv
    have := h e he
    simp only [hv, beq_self_eq_true, Bool.true_and, Bool.not_eq_true,
      Bool.not_eq_true', decide_eq_false_iff_not, not_not] at this
    exact this
  · intro h e he
    by_cases hv : e.toId = v
    · have := h e he hv
      simp [hv, this]
    · simp [hv]

theorem tosFrom_count (edges : List Edge) (u v : String) :
    (tosFrom edges u).count v =
      (edges.filter (fun e => e.fromId == u && e.toId == v)).length := by
  induction edges with
  | nil => simp [tosFrom]
  | cons e t ih =>
    simp only [tosFrom, List.filter_cons] at ih ⊢
    by_cases h1 : e.fromId = u
    · by_cases h2 : e.toId = v
      · simp only [h1, h2, beq_self_eq_true, Bool.and_self, if_pos, List.map_cons,
          List.length_cons]
        rw [List.count_cons]
        simp only [beq_self_eq_true, if_pos]
        omega
      · have h3 : (e.toId == v) = false := by simp [h2]
        simp only [h1, beq_self_eq_true, if_pos, h3, Bool.and_false, List.map_cons,
          Bool.false_eq_true, if_false]
        rw [List.count_cons]
        simp only [h3, Bool.false_eq_true, if_false]
        exact ih
    · have h4 : (e.fromId == u) = false := by simp [h1]
      simp only [h4, Bool.false_and, Bool.false_eq_true, if_false]
      exact ih

theorem find_id_unique (nodes : List Node) (hnd : (nodes.map Node.id).Nodup)
    (n : Node) (hn : n ∈ nodes) :
    nodes.find? (fun x => x.id == n.id) = some n := by
  induction nodes with
  | nil => simp at hn
  | cons a t ih =>
    simp only [List.map_cons, List.nodup_cons] at hnd
    rcases List.mem_cons.mp hn with h | h
    · subst h
      simp [List.find?_cons]
    · have hne : (a.id == n.id) = false := by
        by_cases he : a.id = n.id
        · exact absurd (he ▸ List.mem_map_of_mem Node.id h) hnd.1
        · simp [he]
      simp only [List.find?_cons, hne, Bool.false_eq_true, if_false]
      exact ih hnd.2 h

theorem id_inj (nodes : List Node) (hnd : (nodes.map Node.id).Nodup)
    {n m : Node} (hn : n ∈ nodes) (hm : m ∈ nodes) (h : n.id = m.id) : n = m := by
  have h1 := find_id_unique nodes hnd n hn
  have h2 := find_id_unique nodes hnd m hm
  rw [h] at h1
  rw [h1] at h2
  exact Option.some.inj h2

theorem tosFrom_append (pre : List Edge) (e : Edge) (k : String) :
    tosFrom (pre ++ [e]) k =
      tosFrom pre k ++ (if e.fromId == k then [e.toId] else []) := by
  simp only [tosFrom, List.filter_append, List.map_append]
  congr 1
  by_cases h : e.fromId = k
  · simp [h]
  · simp [h]

theorem initMaps_spec (nodes : List Node) :
    initAdjacency nodes = adjSpec nodes [] ∧ initInDegree nodes = degSpec nodes [] := by
  constructor
  · funext k
    simp [initAdjacency, adjSpec, tosFrom]
  · funext k
    simp [initInDegree, degSpec]

theorem adjSpec_append_self (nodes : List Node) (pre : List Edge) (e : Edge)
    (hfrom : nodes.any (fun n => n.id == e.fromId) = true) :
    adjSpec nodes (pre ++ [e]) e.fromId =
      some (tosFrom pre e.fromId ++ [e.toId]) := by
  simp only [adjSpec, hfrom, if_pos, tosFrom_append, beq_self_eq_true, if_pos]

theorem adjSpec_append_ne (nodes : List Node) (pre : List Edge) (e : Edge)
    (k : String) (hk : k ≠ e.fromId) :
    adjSpec nodes (pre ++ [e]) k = adjSpec nodes pre k := by
  simp only [adjSpec, tosFrom_append]
  have : (e.fromId == k) = false := by
    by_cases hh : e.fromId = k
    · exact absurd hh.symm hk
    · simp [hh]
  simp [this]

theorem degSpec_append (nodes : List Node) (pre : List Edge) (e : Edge)
    (k : String) :
    degSpec nodes (pre ++ [e]) k =
      if k = e.toId then
        (match degSpec nodes pre e.toId with
         | some (some c) => some (some (c + 1))
         | _ => some none)
      else degSpec nodes pre k := by
  by_cases hk : k = e.toId
  · rw [if_pos hk, ← hk]
    by_cases ha : nodes.any (fun n => n.id == k) = true
    · have hlen : ((pre ++ [e]).filter (fun e2 => e2.toId == k)).length =
          (pre.filter (fun e2 => e2.toId == k)).length + 1 := by
        simp [List.filter_append, ← hk]
      simp only [degSpec, ha, if_pos, hlen]
      push_cast
      rfl
    · simp only [Bool.not_eq_true] at ha
      have hany : (pre ++ [e]).any (fun e2 => e2.toId == k) = true := by
        simp [List.any_append, ← hk]
      simp only [degSpec, ha, Bool.false_eq_true, if_false, hany, if_pos]
      by_cases hb : pre.any (fun e2 => e2.toId == k) = true
      · simp [hb]
      · simp only [Bool.not_eq_true] at hb
        simp [hb]
  · rw [if_neg hk]
    have hne : (e.toId == k) = false := by
      by_cases hh : e.toId = k
      · exact absurd hh.symm hk
      · simp [hh]
    simp only [degSpec, List.filter_append, List.any_append]
    simp [hne]

theorem addEdge_ok (nodes : List Node) (pre : List Edge) (e : Edge)
    (hfrom : nodes.any (fun n => n.id == e.fromId) = true) :
    addEdge (adjSpec nodes pre, degSpec nodes pre) e =
      .ok (adjSpec nodes (pre ++ [e]), degSpec nodes (pre ++ [e])) := by
  have hget : adjSpec nodes pre e.fromId = some (tosFrom pre e.fromId) := by
    simp [adjSpec, hfrom]
  unfold addEdge
  dsimp only
  rw [hget]
  simp only [Except.ok.injEq, Prod.mk.injEq]
  constructor
  · funext k
    by_cases hk : k = e.fromId
    · subst hk
      rw [if_pos rfl, adjSpec_append_self nodes pre e hfrom]
    · rw [if_neg hk, adjSpec_append_ne nodes pre e k hk]
  · funext k
    rw [degSpec_append nodes pre e k]

theorem addEdge_err (nodes : List Node) (pre : List Edge) (e : Edge)
    (hfrom : nodes.any (fun n => n.id == e.fromId) = false) :
    addEdge (adjSpec nodes pre, degSpec nodes pre) e =
      .error (.typeError typeErrMsg) := by
  have hget : adjSpec nodes pre e.fromId = none := by
    simp [adjSpec, hfrom]
  unfold addEdge
  dsimp only
  rw [hget]

theorem foldAdd_ok (nodes : List Node) (es : List Edge) :
    ∀ pre, (∀ e ∈ es, nodes.any (fun n => n.id == e.fromId) = true) →
      es.foldlM addEdge (adjSpec nodes pre, degSpec nodes pre) =
        .ok (adjSpec nodes (pre ++ es), degSpec nodes (pre ++ es)) := by
  induction es with
  | nil => intro pre _; simp [List.foldlM, pure, Except.pure]
  | cons a t ih =>
    intro pre hall
    have ha := hall a (List.mem_cons_self a t)
    have ht : ∀ e ∈ t, nodes.any (fun n => n.id == e.fromId) = true :=
      fun e he => hall e (List.mem_cons_of_mem a he)
    simp only [List.foldlM_cons, addEdge_ok nodes pre a ha]
    have := ih (pre ++ [a]) ht
    simpa [List.append_assoc] using this

theorem foldAdd_err (nodes : List Node) (es : List Edge) :
    ∀ pre, (∃ e ∈ es, nodes.any (fun n => n.id == e.fromId) = false) →
      es.foldlM addEdge (adjSpec nodes pre, degSpec nodes pre) =
        .error (.typeError typeErrMsg) := by
  induction es with
  | nil => intro pre h; simp at h
  | cons a t ih =>
    intro pre hex
    by_cases ha : nodes.any (fun n => n.id == a.fromId) = true
    · have hext : ∃ e ∈ t, nodes.any (fun n => n.id == e.fromId) = false := by
        rcases hex with ⟨e, he, hne⟩
        rcases List.mem_cons.mp he with h | h
        · subst h; exact absurd ha (by simp [hne])
        · exact ⟨e, h, hne⟩
      simp only [List.foldlM_cons, addEdge_ok nodes pre a ha]
      exact ih (pre ++ [a]) hext
    · simp only [Bool.not_eq_true] at ha
      simp only [List.foldlM_cons, addEdge_err nodes pre a ha]
      rfl

theorem buildMaps_ok (g : Graph)
    (hfrom : ∀ e ∈ g.edges, g.nodes.any (fun n => n.id == e.fromId) = true) :
    buildMaps g = .ok (adjSpec g.nodes g.edges, degSpec g.nodes g.edges) := by
  unfold buildMaps
  rw [(initMaps_spec g.nodes).1, (initMaps_spec g.nodes).2]
  simpa using foldAdd_ok g.nodes g.edges [] hfrom

theorem buildMaps_err (g : Graph)
    (hex : ∃ e ∈ g.edges, g.nodes.any (fun n => n.id == e.fromId) = false) :
    buildMaps g = .error (.typeError typeErrMsg) := by
  unfold buildMaps
  rw [(initMaps_spec g.nodes).1, (initMaps_spec g.nodes).2]
  simpa using foldAdd_err g.nodes g.edges [] hex

/-- The in-degree value after one decrement: integers go down by one,
everything else (NaN, absent) becomes NaN. -/
def decVal (v : Option JsNum) : JsNum :=
  match v with
  | some (some c) => some (c - 1)
  | _ => none

theorem decNeighbor_snd (nodes : List Node) (q : List Node)
    (m : String → Option JsNum) (a : String) :
    (decNeighbor nodes (q, m) a).2 =
      fun k => if k = a then some (decVal (m a)) else m k := by
  unfold decNeighbor decVal
  dsimp only
  by_cases hz : (match m a with
      | some (some c) => some (c - 1)
      | _ => (none : JsNum)) = some 0
  · simp only [hz, if_pos]
    cases nodes.find? (fun n => n.id == a) <;> rfl
  · simp only [hz, ite_false, if_neg]

theorem decNeighbor_fst_count (nodes : List Node) (q : List Node)
    (m : String → Option JsNum) (a : String) (n : Node) :
    (decNeighbor nodes (q, m) a).1.count n =
      q.count n +
        (if m a = some (some 1) ∧ nodes.find? (fun x => x.id == a) = some n
         then 1 else 0) := by
  unfold decNeighbor
  dsimp only
  by_cases hz : (match m a with
      | some (some c) => some (c - 1)
      | _ => (none : JsNum)) = some 0
  · have hma : m a = some (some 1) := by
      match hv : m a with
      | some (some c) =>
        rw [hv] at hz
        have : c - 1 = 0 := Option.some.inj hz
        have : c = 1 := by omega
        rw [this]
      | some none => rw [hv] at hz; simp at hz
      | none => rw [hv] at hz; simp at hz
    simp only [hz, if_pos]
    cases hf : nodes.find? (fun x => x.id == a) with
    | some nn =>
      simp only [List.count_append, hma, hf, true_and]
      by_cases hn : nn = n
      · subst hn
        simp [List.count_cons]
      · have : (some nn = some n) = False := by simp [hn]
        simp only [this, if_false]
        have : nn ≠ n := hn
        simp [List.count_singleton, List.count_cons, hn, Ne.symm hn]
    | none =>
      simp only [hma, hf, true_and]
      have : (some n = (none : Option Node)) = False := by simp
      simp
  · have hma : ¬ (m a = some (some 1)) := by
      intro hv
      rw [hv] at hz
      simp at hz
    simp only [hz, ite_false, if_neg]
    simp [hma]

theorem decNeighbor_fst_append (nodes : List Node) (q : List Node)
    (m : String → Option JsNum) (a : String) :
    ∃ pushed, (decNeighbor nodes (q, m) a).1 = q ++ pushed ∧
      ∀ n ∈ pushed, n ∈ nodes ∧ ∃ c : Int, m n.id = some (some c) ∧ 0 < c := by
  unfold decNeighbor
  dsimp only
  by_cases hz : (match m a with
      | some (some c) => some (c - 1)
      | _ => (none : JsNum)) = some 0
  · have hma : m a = some (some 1) := by
      match hv : m a with
      | some (some c) =>
        rw [hv] at hz
        have : c - 1 = 0 := Option.some.inj hz
        have : c = 1 := by omega
        rw [this]
      | some none => rw [hv] at hz; simp at hz
      | none => rw [hv] at hz; simp at hz
    simp only [hz, if_pos]
    cases hf : nodes.find? (fun x => x.id == a) with
    | some nn =>
      refine ⟨[nn], rfl, ?_⟩
      intro n hn
      rw [List.mem_singleton] at hn
      subst hn
      have hid : n.id = a := by
        have := List.find?_some hf
        simpa using this
      exact ⟨List.mem_of_find?_eq_some hf, 1, by rw [hid]; exact hma, by omega⟩
    | none => exact ⟨[], by simp, by simp⟩
  · simp only [hz, ite_false, if_neg]
    exact ⟨[], by simp, by simp⟩

theorem foldDec_deg (nodes : List Node) (ns : List String) :
    ∀ (q : List Node) (m : String → Option JsNum) (k : String),
      ((ns.foldl (decNeighbor nodes) (q, m)).2) k =
        if ns.count k = 0 then m k
        else match m k with
          | some (some c) => some (some (c - (ns.count k : Int)))
          | _ => some none := by
  induction ns with
  | nil => intro q m k; simp
  | cons a rest ih =>
    intro q m k
    have hstep : rest.foldl (decNeighbor nodes) (decNeighbor nodes (q, m) a) =
        rest.foldl (decNeighbor nodes)
          ((decNeighbor nodes (q, m) a).1,
            fun k2 => if k2 = a then some (decVal (m a)) else m k2) := by
      rw [← decNeighbor_snd nodes q m a]
    rw [List.foldl_cons, hstep]
    rw [ih (decNeighbor nodes (q, m) a).1
      (fun k2 => if k2 = a then some (decVal (m a)) else m k2) k]
    by_cases hk : k = a
    · subst hk
      simp only [if_pos rfl, List.count_cons, beq_self_eq_true, if_pos]
      by_cases hr : rest.count k = 0
      · simp only [hr, if_pos]
        match hv : m k with
        | some (some c) => simp [decVal, hv]
        | some none => simp [decVal, hv]
        | none => simp [decVal, hv]
      · have h1 : rest.count k + 1 ≠ 0 := by omega
        simp only [hr, h1, ite_false, if_neg]
        match hv : m k with
        | some (some c) =>
          simp only [decVal, hv]
          have : (c - 1 - (rest.count k : Int)) = c - ((rest.count k + 1 : Nat) : Int) := by
            push_cast
            ring
          simp [this]
        | some none => simp [decVal, hv]
        | none => simp [decVal, hv]
    · have h2 : ¬ a = k := fun h => hk h.symm
      have hcount : (a :: rest).count k = rest.count k := by
        simp [List.count_cons, hk, h2]
      simp only [hk, ite_false, if_neg, hcount]

/-- A stored in-degree value reaches exactly zero somewhere within `j`
decrements: the stored integer c satisfies 0 < c ≤ j.  NaN and absent
values never compare equal to 0. -/
def hitsZero (v : Option JsNum) (j : Nat) : Bool :=
  match v with
  | some (some c) => decide (0 < c ∧ c ≤ (j : Int))
  | _ => false

theorem foldDec_count (nodes : List Node) (ns : List String) :
    ∀ (q : List Node) (m : String → Option JsNum) (n : Node),
      (ns.foldl (decNeighbor nodes) (q, m)).1.count n =
        q.count n +
          (if hitsZero (m n.id) (ns.count n.id) = true ∧
              nodes.find? (fun x => x.id == n.id) = some n
           then 1 else 0) := by
  induction ns with
  | nil =>
    intro q m n
    have hz : hitsZero (m n.id) 0 = false := by
      simp only [hitsZero]
      match m n.id with
      | some (some c) =>
        simp only [Nat.cast_zero, decide_eq_false_iff_not]
        omega
      | some none => rfl
      | none => rfl
    simp [hz]
  | cons a rest ih =>
    intro q m n
    have hstep : rest.foldl (decNeighbor nodes) (decNeighbor nodes (q, m) a) =
        rest.foldl (decNeighbor nodes)
          ((decNeighbor nodes (q, m) a).1,
            fun k2 => if k2 = a then some (decVal (m a)) else m k2) := by
      rw [← decNeighbor_snd nodes q m a]
    rw [List.foldl_cons, hstep]
    rw [ih (decNeighbor nodes (q, m) a).1
      (fun k2 => if k2 = a then some (decVal (m a)) else m k2) n]
    rw [decNeighbor_fst_count nodes q m a n]
    by_cases hk : n.id = a
    · have hcnt : (a :: rest).count n.id = rest.count n.id + 1 := by
        simp [List.count_cons, hk]
      have hm1 : (if n.id = a then some (decVal (m a)) else m n.id) =
          some (decVal (m a)) := by simp [hk]
      rw [hcnt, hm1, hk]
      match hv : m a with
      | some (some c) =>
        by_cases hc : c = 1
        · subst hc
          have e2 : hitsZero (some (decVal (some (some 1)))) (rest.count a) = false := by
            simp [decVal, hitsZero]
          have e3 : hitsZero (some (some 1)) (rest.count a + 1) = true := by
            simp only [hitsZero, decide_eq_true_eq]
            constructor
            · omega
            · have : (1 : Int) ≤ ((rest.count a + 1 : Nat) : Int) := by
                push_cast
                omega
              exact this
          rw [e2, e3]
          by_cases hf : nodes.find? (fun x => x.id == a) = some n
          · simp [hf]
          · simp [hf]
        · have e1 : ¬ (some (some c) = some (some 1) ∧
              nodes.find? (fun x => x.id == a) = some n) := by
            rintro ⟨hcon, -⟩
            have := Option.some.inj (Option.some.inj hcon)
            omega
          have e2 : hitsZero (some (decVal (some (some c)))) (rest.count a) =
              hitsZero (some (some c)) (rest.count a + 1) := by
            simp only [decVal, hitsZero, decide_eq_decide]
            push_cast
            constructor
            · intro h
              omega
            · intro h
              constructor
              · omega
              · omega
          rw [e2]
          simp [e1]
          intro h
          exact absurd h hc
      | some none =>
        have e1 : ¬ ((some none : Option JsNum) = some (some 1) ∧
            nodes.find? (fun x => x.id == a) = some n) := by
          rintro ⟨hcon, -⟩
          simp at hcon
        have e2 : hitsZero (some (decVal (some (none : Option Int)))) (rest.count a) = false := by
          simp [decVal, hitsZero]
        have e3 : hitsZero (some (none : Option Int)) (rest.count a + 1) = false := by
          simp [hitsZero]
        rw [e2, e3]
        simp [e1]
      | none =>
        have e1 : ¬ ((none : Option JsNum) = some (some 1) ∧
            nodes.find? (fun x => x.id == a) = some n) := by
          rintro ⟨hcon, -⟩
          simp at hcon
        have e2 : hitsZero (some (decVal none)) (rest.count a) = false := by
          simp [decVal, hitsZero]
        have e3 : hitsZero (none : Option JsNum) (rest.count a + 1) = false := by
          simp [hitsZero]
        rw [e2, e3]
        simp [e1]
    · have e1 : ¬ (m a = some (some 1) ∧
          nodes.find? (fun x => x.id == a) = some n) := by
        rintro ⟨-, hf⟩
        have := List.find?_some hf
        simp only [beq_iff_eq] at this
        exact hk this
      have hcnt : (a :: rest).count n.id = rest.count n.id := by
        have h2 : ¬ a = n.id := fun h => hk h.symm
        simp [List.count_cons, hk, h2]
      have e2 : (if n.id = a then some (decVal (m a)) else m n.id) = m n.id := by
        simp [hk]
      rw [hcnt, e2]
      simp [e1]

theorem foldDec_append (nodes : List Node) (ns : List String) :
    ∀ (q : List Node) (m : String → Option JsNum),
      ∃ pushed, (ns.foldl (decNeighbor nodes) (q, m)).1 = q ++ pushed ∧
        ∀ n ∈ pushed, n ∈ nodes ∧ ∃ c : Int, m n.id = some (some c) ∧ 0 < c := by
  induction ns with
  | nil => intro q m; exact ⟨[], by simp, by simp⟩
  | cons a rest ih =>
    intro q m
    obtain ⟨p1, hp1, hs1⟩ := decNeighbor_fst_append nodes q m a
    have hstep : rest.foldl (decNeighbor nodes) (decNeighbor nodes (q, m) a) =
        rest.foldl (decNeighbor nodes)
          (q ++ p1, fun k2 => if k2 = a then some (decVal (m a)) else m k2) := by
      rw [← decNeighbor_snd nodes q m a, ← hp1]
    obtain ⟨p2, hp2, hs2⟩ := ih (q ++ p1)
      (fun k2 => if k2 = a then some (decVal (m a)) else m k2)
    refine ⟨p1 ++ p2, ?_, ?_⟩
    · rw [List.foldl_cons, hstep, hp2, List.append_assoc]
    · intro n hn
      rcases List.mem_append.mp hn with h | h
      · exact hs1 n h
      · obtain ⟨hmem, c, hc, hcpos⟩ := hs2 n h
        refine ⟨hmem, ?_⟩
        by_cases hk : n.id = a
        · rw [hk]
          simp only [hk, if_pos] at hc
          match hv : m a with
          | some (some c0) =>
            rw [hv] at hc
            simp only [decVal] at hc
            have : c0 - 1 = c := Option.some.inj (Option.some.inj hc)
            exact ⟨c0, rfl, by omega⟩
          | some none => rw [hv] at hc; simp [decVal] at hc
          | none => rw [hv] at hc; simp [decVal] at hc
        · simp only [hk, ite_false, if_neg] at hc
          exact ⟨c, hc, hcpos⟩

/-- Invariant of the topological-sort loop, for a graph with distinct node
ids whose edges all start at a node: the queue and plan are made of graph
nodes, no node occurs twice across plan and queue, the stored in-degree of
every node counts its incoming edges from unplanned sources, the queue
holds exactly the unplanned nodes with no unplanned predecessor, planned
nodes have all predecessors planned (in strictly earlier positions), and
the nodes of initial in-degree 0, in graph order, are exactly the
initially-zero members of plan then queue. -/
structure KahnInv (g : Graph) (queue : List Node)
    (deg : String → Option JsNum) (plan : List Node) : Prop where
  plan_sub : ∀ n ∈ plan, n ∈ g.nodes
  queue_sub : ∀ n ∈ queue, n ∈ g.nodes
  nodup : (plan ++ queue).Nodup
  deg_valid : ∀ n ∈ g.nodes,
    deg n.id = some (some ((remPredE g.edges (plan.map Node.id) n.id : Nat) : Int))
  queue_iff : ∀ n ∈ g.nodes,
    (n ∈ queue ↔ n ∉ plan ∧ remPredE g.edges (plan.map Node.id) n.id = 0)
  plan_zero : ∀ n ∈ plan, remPredE g.edges (plan.map Node.id) n.id = 0
  plan_sorted : ∀ (i : Nat) (hi : i < plan.length), ∀ e ∈ g.edges,
    e.toId = (plan.get ⟨i, hi⟩).id → e.fromId ∈ (plan.take i).map Node.id
  initZ : plan.filter (fun n => decide (remPredE g.edges [] n.id = 0)) ++
      queue.filter (fun n => decide (remPredE g.edges [] n.id = 0)) =
    g.nodes.filter (fun n => decide (remPredE g.edges [] n.id = 0))

theorem remPredE_nil_plan (edges : List Edge) (v : String) :
    remPredE edges [] v = (edges.filter (fun e => e.toId == v)).length := by
  unfold remPredE
  congr 1
  apply List.filter_congr
  intro e _
  simp

theorem kahn_init (g : Graph)
    (hnd : (g.nodes.map Node.id).Nodup) :
    KahnInv g
      (g.nodes.filter (fun n =>
        decide (degSpec g.nodes g.edges n.id = some (some 0))))
      (degSpec g.nodes g.edges) [] := by
  have hanymem : ∀ n ∈ g.nodes, g.nodes.any (fun x => x.id == n.id) = true := by
    intro n hn
    rw [List.any_eq_true]
    exact ⟨n, hn, by simp⟩
  have hdeg : ∀ n ∈ g.nodes, degSpec g.nodes g.edges n.id =
      some (some ((remPredE g.edges [] n.id : Nat) : Int)) := by
    intro n hn
    simp only [degSpec, hanymem n hn, if_pos, remPredE_nil_plan]
  have hzero_iff : ∀ n ∈ g.nodes,
      (decide (degSpec g.nodes g.edges n.id = some (some 0)) = true ↔
        remPredE g.edges [] n.id = 0) := by
    intro n hn
    rw [decide_eq_true_eq, hdeg n hn]
    constructor
    · intro h
      have := Option.some.inj (Option.some.inj h)
      exact_mod_cast this
    · intro h
      rw [h]
      rfl
  refine ⟨?_, ?_, ?_, ?_, ?_, ?_, ?_, ?_⟩
  · intro n hn
    simp at hn
  · intro n hn
    exact (List.mem_filter.mp hn).1
  · simp only [List.nil_append]
    exact (List.Nodup.of_map Node.id hnd).filter _
  · intro n hn
    simpa using hdeg n hn
  · intro n hn
    rw [List.map_nil]
    constructor
    · intro h
      have h2 := (List.mem_filter.mp h).2
      exact ⟨by simp, (hzero_iff n hn).mp h2⟩
    · rintro ⟨-, h2⟩
      exact List.mem_filter.mpr ⟨hn, (hzero_iff n hn).mpr h2⟩
  · intro n hn
    simp at hn
  · intro i hi
    simp at hi
  · simp only [List.filter_nil, List.nil_append]
    rw [List.filter_filter]
    apply List.filter_congr
    intro n hn
    by_cases hz : remPredE g.edges [] n.id = 0
    · simp [hz, (hzero_iff n hn).mpr hz]
    · simp [hz]

theorem exists_min_by (l : List Node) (f : Node → Nat) (h : l ≠ []) :
    ∃ a ∈ l, ∀ b ∈ l, f a ≤ f b := by
  induction l with
  | nil => exact absurd rfl h
  | cons x t ih =>
    cases ht : t with
    | nil =>
      refine ⟨x, by simp, ?_⟩
      intro b hb
      rw [List.mem_singleton] at hb
      rw [hb]
    | cons y t2 =>
      obtain ⟨a, ha, hmin⟩ := ih (by simp [ht])
      rw [← ht] at *
      by_cases hle : f x ≤ f a
      · refine ⟨x, List.mem_cons_self x t, ?_⟩
        intro b hb
        rcases List.mem_cons.mp hb with h1 | h1
        · rw [h1]
        · exact le_trans hle (hmin b h1)
      · refine ⟨a, List.mem_cons_of_mem x ha, ?_⟩
        intro b hb
        rcases List.mem_cons.mp hb with h1 | h1
        · rw [h1]; omega
        · exact hmin b h1

theorem kahn_preserve (g : Graph)
    (hnd : (g.nodes.map Node.id).Nodup)
    (q : Node) (qs : List Node) (deg : String → Option JsNum) (plan : List Node)
    (hinv : KahnInv g (q :: qs) deg plan) :
    KahnInv g
      ((tosFrom g.edges q.id).foldl (decNeighbor g.nodes) (qs, deg)).1
      ((tosFrom g.edges q.id).foldl (decNeighbor g.nodes) (qs, deg)).2
      (plan ++ [q]) := by
  set ns := tosFrom g.edges q.id with hns
  have hq : q ∈ g.nodes := hinv.queue_sub q (List.mem_cons_self q qs)
  have hqq := (hinv.queue_iff q hq).mp (List.mem_cons_self q qs)
  have hqid : q.id ∉ plan.map Node.id := by
    intro hmem
    obtain ⟨p, hp, hpid⟩ := List.mem_map.mp hmem
    have hpq := id_inj g.nodes hnd (hinv.plan_sub p hp) hq hpid
    rw [hpq] at hp
    exact hqq.1 hp
  have hmapq : (plan ++ [q]).map Node.id = plan.map Node.id ++ [q.id] := by simp
  have hpop : ∀ v, remPredE g.edges (plan.map Node.id) v =
      remPredE g.edges (plan.map Node.id ++ [q.id]) v + ns.count v := by
    intro v
    rw [hns, tosFrom_count g.edges q.id v]
    exact remPred_pop g.edges (plan.map Node.id) q.id v hqid
  have hfind : ∀ n ∈ g.nodes, g.nodes.find? (fun x => x.id == n.id) = some n :=
    fun n hn => find_id_unique g.nodes hnd n hn
  have hdeg2 : ∀ n ∈ g.nodes,
      ((ns.foldl (decNeighbor g.nodes) (qs, deg)).2) n.id =
        some (some ((remPredE g.edges ((plan ++ [q]).map Node.id) n.id : Nat) : Int)) := by
    intro n hn
    rw [foldDec_deg g.nodes ns qs deg n.id, hinv.deg_valid n hn, hmapq]
    have hp := hpop n.id
    by_cases h0 : ns.count n.id = 0
    · rw [if_pos h0]
      congr 2
      omega
    · rw [if_neg h0]
      dsimp only
      congr 2
      omega
  have hhz : ∀ n ∈ g.nodes, (hitsZero (deg n.id) (ns.count n.id) = true ↔
      (remPredE g.edges ((plan ++ [q]).map Node.id) n.id = 0 ∧ 0 < ns.count n.id)) := by
    intro n hn
    rw [hinv.deg_valid n hn, hmapq]
    simp only [hitsZero, decide_eq_true_eq]
    have hp := hpop n.id
    constructor
    · rintro ⟨h1, h2⟩
      omega
    · rintro ⟨h1, h2⟩
      omega
  have hqcount : ∀ n : Node, ((ns.foldl (decNeighbor g.nodes) (qs, deg)).1).count n =
      qs.count n + (if hitsZero (deg n.id) (ns.count n.id) = true ∧
        g.nodes.find? (fun x => x.id == n.id) = some n then 1 else 0) :=
    fun n => foldDec_count g.nodes ns qs deg n
  obtain ⟨pushed, hpush, hpushspec⟩ := foldDec_append g.nodes ns qs deg
  have hnodupold := hinv.nodup
  have hdisj : ∀ n ∈ pushed, n ∉ plan ∧ n ≠ q ∧ n ∉ qs := by
    intro n hnp
    obtain ⟨hmem, c, hc, hcpos⟩ := hpushspec n hnp
    have hr : (c : Int) = ((remPredE g.edges (plan.map Node.id) n.id : Nat) : Int) := by
      have := hinv.deg_valid n hmem
      rw [hc] at this
      exact Option.some.inj (Option.some.inj this)
    have hrpos : 0 < remPredE g.edges (plan.map Node.id) n.id := by omega
    refine ⟨?_, ?_, ?_⟩
    · intro hcon
      have := hinv.plan_zero n hcon
      omega
    · intro hcon
      rw [hcon] at hrpos
      omega
    · intro hcon
      have := (hinv.queue_iff n hmem).mp (List.mem_cons_of_mem q hcon)
      omega
  have hpushZ : ∀ n ∈ pushed, ¬ remPredE g.edges [] n.id = 0 := by
    intro n hnp
    obtain ⟨hmem, c, hc, hcpos⟩ := hpushspec n hnp
    have hr : (c : Int) = ((remPredE g.edges (plan.map Node.id) n.id : Nat) : Int) := by
      have := hinv.deg_valid n hmem
      rw [hc] at this
      exact Option.some.inj (Option.some.inj this)
    have hmono := remPred_mono g.edges [] (plan.map Node.id) n.id (by simp)
    omega
  refine ⟨?_, ?_, ?_, ?_, ?_, ?_, ?_, ?_⟩
  · intro n hn
    rcases List.mem_append.mp hn with h | h
    · exact hinv.plan_sub n h
    · rw [List.mem_singleton] at h
      rw [h]
      exact hq
  · intro n hn
    rw [hpush] at hn
    rcases List.mem_append.mp hn with h | h
    · exact hinv.queue_sub n (List.mem_cons_of_mem q h)
    · exact (hpushspec n h).1
  · rw [hpush, ← List.append_assoc]
    rw [List.nodup_append]
    refine ⟨?_, ?_, ?_⟩
    · have : plan ++ [q] ++ qs = plan ++ q :: qs := by simp
      rw [this]
      exact hnodupold
    · rw [List.nodup_iff_count_le_one]
      intro n
      have hcnt := hqcount n
      rw [hpush, List.count_append] at hcnt
      by_cases hcond : hitsZero (deg n.id) (ns.count n.id) = true ∧
          g.nodes.find? (fun x => x.id == n.id) = some n
      · rw [if_pos hcond] at hcnt
        omega
      · rw [if_neg hcond] at hcnt
        omega
    · intro n hn1 hn2
      have hd := hdisj n hn2
      rcases List.mem_append.mp hn1 with h | h
      · rcases List.mem_append.mp h with h2 | h2
        · exact hd.1 h2
        · rw [List.mem_singleton] at h2
          exact hd.2.1 h2
      · exact hd.2.2 h
  · intro n hn
    exact hdeg2 n hn
  · intro n hn
    rw [← List.count_pos_iff, hqcount n]
    have hfid := hfind n hn
    by_cases hz : hitsZero (deg n.id) (List.count n.id ns) = true
    · rw [if_pos ⟨hz, hfid⟩]
      have hz2 := (hhz n hn).mp hz
      constructor
      · intro _
        refine ⟨?_, hz2.1⟩
        intro hcon
        have hz3 := hz2.1
        rw [hmapq] at hz3
        rcases List.mem_append.mp hcon with h | h
        · have h0 := hinv.plan_zero n h
          have hp := hpop n.id
          have hz4 := hz2.2
          omega
        · rw [List.mem_singleton] at h
          subst h
          have hp := hpop n.id
          have hz4 := hz2.2
          have h5 := hqq.2
          omega
      · intro _
        omega
    · rw [if_neg (fun hcon => hz hcon.1)]
      constructor
      · intro hpos
        have hqs : n ∈ qs := List.count_pos_iff.mp (by omega)
        have hold := (hinv.queue_iff n hn).mp (List.mem_cons_of_mem q hqs)
        refine ⟨?_, ?_⟩
        · intro hcon
          rcases List.mem_append.mp hcon with h | h
          · exact hold.1 h
          · rw [List.mem_singleton] at h
            have hnd2 := hinv.nodup
            rw [List.nodup_append] at hnd2
            have hnd3 := hnd2.2.1
            rw [List.nodup_cons] at hnd3
            rw [h] at hqs
            exact hnd3.1 hqs
        · have hp := hpop n.id
          have h2 := hold.2
          rw [hmapq]
          omega
      · rintro ⟨hnotp, hzero⟩
        have hp := hpop n.id
        have hzero2 := hzero
        rw [hmapq] at hzero2
        by_cases hr : remPredE g.edges (plan.map Node.id) n.id = 0
        · have hold : n ∈ q :: qs := (hinv.queue_iff n hn).mpr
            ⟨fun hcon => hnotp (List.mem_append.mpr (Or.inl hcon)), hr⟩
          rcases List.mem_cons.mp hold with h | h
          · exact absurd (List.mem_append.mpr
              (Or.inr (by rw [h]; exact List.mem_singleton_self q))) hnotp
          · have := List.count_pos_iff.mpr h
            omega
        · exfalso
          apply hz
          rw [hhz n hn]
          exact ⟨hzero, by omega⟩
  · intro n hn
    rcases List.mem_append.mp hn with h | h
    · have h0 := hinv.plan_zero n h
      have hp := hpop n.id
      rw [hmapq]
      omega
    · rw [List.mem_singleton] at h
      rw [h, hmapq]
      have hp := hpop q.id
      omega
  · intro i hi e he hto
    rw [List.length_append, List.length_singleton] at hi
    by_cases hlt : i < plan.length
    · have hget : (plan ++ [q]).get ⟨i, by simp only [List.length_append, List.length_singleton]; omega⟩ =
          plan.get ⟨i, hlt⟩ := by
        rw [List.get_append]
      rw [hget] at hto
      have htake : (plan ++ [q]).take i = plan.take i := by
        rw [List.take_append_eq_append_take]
        have : i - plan.length = 0 := by omega
        simp [this]
      rw [htake]
      exact hinv.plan_sorted i hlt e he hto
    · have hieq : i = plan.length := by omega
      have hget : (plan ++ [q]).get ⟨i, by simp only [List.length_append, List.length_singleton]; omega⟩ = q := by
        subst hieq
        simp
      rw [hget] at hto
      have htake : (plan ++ [q]).take i = plan := by
        subst hieq
        rw [List.take_append_eq_append_take]
        simp
      rw [htake]
      have := (remPred_zero_iff g.edges (plan.map Node.id) q.id).mp hqq.2 e he hto
      exact this
  · have hfq : (plan ++ [q]).filter (fun n => decide (remPredE g.edges [] n.id = 0)) =
        plan.filter (fun n => decide (remPredE g.edges [] n.id = 0)) ++
          [q].filter (fun n => decide (remPredE g.edges [] n.id = 0)) := by
      rw [List.filter_append]
    have hfqueue : ((ns.foldl (decNeighbor g.nodes) (qs, deg)).1).filter
        (fun n => decide (remPredE g.edges [] n.id = 0)) =
        qs.filter (fun n => decide (remPredE g.edges [] n.id = 0)) := by
      rw [hpush, List.filter_append]
      have : pushed.filter (fun n => decide (remPredE g.edges [] n.id = 0)) = [] := by
        rw [List.filter_eq_nil_iff]
        intro n hn
        simp only [decide_eq_true_eq]
        exact hpushZ n hn
      rw [this, List.append_nil]
    rw [hfq, hfqueue, List.append_assoc]
    have : [q].filter (fun n => decide (remPredE g.edges [] n.id = 0)) ++
        qs.filter (fun n => decide (remPredE g.edges [] n.id = 0)) =
        (q :: qs).filter (fun n => decide (remPredE g.edges [] n.id = 0)) := by
      rw [← List.filter_append]
      rfl
    rw [this]
    exact hinv.initZ

theorem kahnLoop_run (g : Graph)
    (hnd : (g.nodes.map Node.id).Nodup)
    (hfrom : ∀ e ∈ g.edges, g.nodes.any (fun n => n.id == e.fromId) = true) :
    ∀ fuel queue deg plan,
      queue.length + sumDeg g.nodes deg ≤ fuel →
      KahnInv g queue deg plan →
      ∃ res deg2,
        kahnLoop g.nodes (adjSpec g.nodes g.edges) queue deg plan = res ∧
        KahnInv g [] deg2 res := by
  intro fuel
  induction fuel with
  | zero =>
    intro queue deg plan hle hinv
    match queue with
    | [] =>
      refine ⟨plan, deg, ?_, hinv⟩
      rw [kahnLoop.eq_def]
    | q :: qs =>
      exfalso
      simp only [List.length_cons] at hle
      omega
  | succ f ih =>
    intro queue deg plan hle hinv
    match queue with
    | [] =>
      refine ⟨plan, deg, ?_, hinv⟩
      rw [kahnLoop.eq_def]
    | q :: qs =>
      have hq : q ∈ g.nodes := hinv.queue_sub q (List.mem_cons_self q qs)
      have hqany : g.nodes.any (fun n => n.id == q.id) = true := by
        rw [List.any_eq_true]
        exact ⟨q, hq, by simp⟩
      have hadj : (adjSpec g.nodes g.edges) q.id = some (tosFrom g.edges q.id) := by
        simp [adjSpec, hqany]
      have hmeasure :
          ((tosFrom g.edges q.id).foldl (decNeighbor g.nodes) (qs, deg)).1.length +
            sumDeg g.nodes
              ((tosFrom g.edges q.id).foldl (decNeighbor g.nodes) (qs, deg)).2 ≤ f := by
        have h2 := foldDec_measure g.nodes (tosFrom g.edges q.id) (qs, deg)
        simp only at h2
        simp only [List.length_cons] at hle
        omega
      have hinv2 := kahn_preserve g hnd q qs deg plan hinv
      obtain ⟨res, deg2, heq, hres⟩ := ih _ _ _ hmeasure hinv2
      refine ⟨res, deg2, ?_, hres⟩
      rw [kahnLoop.eq_def]
      dsimp only
      rw [hadj]
      dsimp only [Option.getD]
      exact heq

theorem planOf_spec (g : Graph)
    (hnd : (g.nodes.map Node.id).Nodup)
    (hfrom : ∀ e ∈ g.edges, g.nodes.any (fun n => n.id == e.fromId) = true) :
    ∃ res, planOf g = .ok res ∧ ∃ deg2, KahnInv g [] deg2 res := by
  have hinit := kahn_init g hnd
  obtain ⟨res, deg2, heq, hres⟩ := kahnLoop_run g hnd hfrom
    ((g.nodes.filter (fun n =>
        decide (degSpec g.nodes g.edges n.id = some (some 0)))).length +
      sumDeg g.nodes (degSpec g.nodes g.edges))
    (g.nodes.filter (fun n =>
      decide (degSpec g.nodes g.edges n.id = some (some 0))))
    (degSpec g.nodes g.edges) [] (le_refl _) hinit
  refine ⟨res, ?_, deg2, hres⟩
  unfold planOf
  rw [buildMaps_ok g hfrom]
  dsimp only [Except.map]
  rw [heq]

theorem kahnInv_complete (g : Graph)
    (hfrom : ∀ e ∈ g.edges, g.nodes.any (fun n => n.id == e.fromId) = true)
    (hacyc : AcyclicG g) (deg2 : String → Option JsNum) (res : List Node)
    (hres : KahnInv g [] deg2 res) : ∀ n ∈ g.nodes, n ∈ res := by
  by_contra hcon
  push_neg at hcon
  obtain ⟨n0, hn0, hn0res⟩ := hcon
  obtain ⟨rank, hrank⟩ := hacyc
  set S := g.nodes.filter (fun n => decide (¬ n ∈ res)) with hSdef
  have hS : S ≠ [] := by
    intro h
    have hmem : n0 ∈ S := List.mem_filter.mpr ⟨hn0, by simp [hn0res]⟩
    rw [h] at hmem
    simp at hmem
  obtain ⟨a, haS, hmin⟩ := exists_min_by S (fun n => rank n.id) hS
  have haN : a ∈ g.nodes := (List.mem_filter.mp haS).1
  have haRes : a ∉ res := by
    have := (List.mem_filter.mp haS).2
    simpa using this
  have hrem : ¬ remPredE g.edges (res.map Node.id) a.id = 0 := by
    intro h0
    have := (hres.queue_iff a haN).mpr ⟨haRes, h0⟩
    simp at this
  rw [remPred_zero_iff] at hrem
  push_neg at hrem
  obtain ⟨e, he, heto, hefrom⟩ := hrem
  have hany := hfrom e he
  rw [List.any_eq_true] at hany
  obtain ⟨u, hu, huid⟩ := hany
  rw [beq_iff_eq] at huid
  have huS : u ∈ S := by
    refine List.mem_filter.mpr ⟨hu, ?_⟩
    simp only [decide_eq_true_eq]
    intro hcon2
    exact hefrom (huid ▸ List.mem_map_of_mem Node.id hcon2)
  have hlt := hrank e he (by
    rw [List.any_eq_true]
    exact ⟨a, haN, by rw [heto]; simp⟩)
  have hmin2 := hmin u huS
  rw [huid] at hmin2
  rw [heto] at hlt
  omega

theorem kahn_main (g : Graph)
    (hnd : (g.nodes.map Node.id).Nodup)
    (hfrom : ∀ e ∈ g.edges, g.nodes.any (fun n => n.id == e.fromId) = true)
    (hacyc : AcyclicG g) :
    ∃ res, planOf g = .ok res ∧
      res.length = g.nodes.length ∧
      (∀ n ∈ g.nodes, res.count n = 1) ∧
      (∀ (i : Nat) (hi : i < res.length), ∀ e ∈ g.edges,
        e.toId = (res.get ⟨i, hi⟩).id → e.fromId ∈ (res.take i).map Node.id) ∧
      res.filter (fun n => decide (remPredE g.edges [] n.id = 0)) =
        g.nodes.filter (fun n => decide (remPredE g.edges [] n.id = 0)) := by
  obtain ⟨res, hok, deg2, hres⟩ := planOf_spec g hnd hfrom
  have hcompl := kahnInv_complete g hfrom hacyc deg2 res hres
  have hsub : ∀ n ∈ res, n ∈ g.nodes := fun n hn => hres.plan_sub n hn
  have hnodupres : res.Nodup := by
    have := hres.nodup
    simpa using this
  have hnodupnodes : g.nodes.Nodup := List.Nodup.of_map Node.id hnd
  have hperm : List.Perm res g.nodes := by
    have h1 : List.Subperm res g.nodes := hnodupres.subperm hsub
    have h2 : List.Subperm g.nodes res := hnodupnodes.subperm hcompl
    exact h1.antisymm h2
  refine ⟨res, hok, hperm.length_eq, ?_, ?_, ?_⟩
  · intro n hn
    rw [hperm.count_eq n]
    have hpos := List.count_pos_iff.mpr hn
    have hle := List.nodup_iff_count_le_one.mp hnodupnodes n
    omega
  · intro i hi e he hto
    exact hres.plan_sorted i hi e he hto
  · have := hres.initZ
    simpa using this

/-! ## Claims C6 and C10 — plan builder correctness -/

/-- Claim C6: for a graph with distinct node ids whose edge endpoints all
name nodes, if the graph is acyclic (admits a topological rank) the
execution plan succeeds with length `|nodes|`, contains each node exactly
once, respects all edges (every predecessor occupies a strictly earlier
position), and lists the zero-in-degree nodes in graph insertion order;
and whenever the computed plan size differs from `|nodes|`, the engine
fails the execution with the cycle-or-disconnected-node message before
creating any step. -/
theorem buildExecutionPlan_correct :
    (∀ g : Graph, (g.nodes.map Node.id).Nodup →
      (∀ e ∈ g.edges, g.nodes.any (fun n => n.id == e.fromId) = true) →
      (∀ e ∈ g.edges, g.nodes.any (fun n => n.id == e.toId) = true) →
      AcyclicG g →
      ∃ plan, buildExecutionPlan g = .ok plan ∧
        plan.length = g.nodes.length ∧
        (∀ n ∈ g.nodes, plan.count n = 1) ∧
        (∀ (i : Nat) (hi : i < plan.length), ∀ e ∈ g.edges,
          e.toId = (plan.get ⟨i, hi⟩).id → e.fromId ∈ (plan.take i).map Node.id) ∧
        plan.filter (fun n => decide (remPredE g.edges [] n.id = 0)) =
          g.nodes.filter (fun n => decide (remPredE g.edges [] n.id = 0))) ∧
    (∀ (g : Graph) (outcome : String → Bool) (failMsg : String → String)
        (st : EngineState) (plan0 : List Node),
      planOf g = .ok plan0 → plan0.length ≠ g.nodes.length →
      executeGraph outcome failMsg g st =
        { status := .failed, steps := st.steps, errorMessage := some cycleMsg }) := by
  constructor
  · intro g hnd hfrom hto hacyc
    obtain ⟨res, hok, hlen, hcount, hsort, hz⟩ := kahn_main g hnd hfrom hacyc
    refine ⟨res, ?_, hlen, hcount, hsort, hz⟩
    unfold buildExecutionPlan
    rw [hok]
    simp [hlen]
  · intro g outcome failMsg st plan0 hok hne
    unfold executeGraph buildExecutionPlan
    rw [hok]
    dsimp only
    rw [if_pos hne]
    rfl

/-- Claim C6 witness: the success clauses at a concrete acyclic two-node
graph, and the failure clause at a concrete two-node cycle. -/
theorem buildExecutionPlan_correct_witness :
    (∃ plan, buildExecutionPlan ⟨[⟨"a"⟩, ⟨"b"⟩], [⟨"a", "b"⟩]⟩ = .ok plan ∧
      plan.length = (⟨[⟨"a"⟩, ⟨"b"⟩], [⟨"a", "b"⟩]⟩ : Graph).nodes.length ∧
      (∀ n ∈ (⟨[⟨"a"⟩, ⟨"b"⟩], [⟨"a", "b"⟩]⟩ : Graph).nodes, plan.count n = 1) ∧
      (∀ (i : Nat) (hi : i < plan.length),
        ∀ e ∈ (⟨[⟨"a"⟩, ⟨"b"⟩], [⟨"a", "b"⟩]⟩ : Graph).edges,
        e.toId = (plan.get ⟨i, hi⟩).id → e.fromId ∈ (plan.take i).map Node.id) ∧
      plan.filter (fun n =>
          decide (remPredE [⟨"a", "b"⟩] [] n.id = 0)) =
        [⟨"a"⟩, ⟨"b"⟩].filter (fun n =>
          decide (remPredE [⟨"a", "b"⟩] [] n.id = 0))) ∧
    executeGraph (fun _ => true) (fun _ => "e")
        ⟨[⟨"a"⟩, ⟨"b"⟩], [⟨"a", "b"⟩, ⟨"b", "a"⟩]⟩ ⟨.running, [], none⟩ =
      { status := .failed, steps := [], errorMessage := some cycleMsg } := by
  constructor
  · exact buildExecutionPlan_correct.1 ⟨[⟨"a"⟩, ⟨"b"⟩], [⟨"a", "b"⟩]⟩
      (by decide) (by decide) (by decide)
      ⟨fun s => if s = "a" then 0 else 1, by unfold TopoOrdered; decide⟩
  · have hok : planOf ⟨[⟨"a"⟩, ⟨"b"⟩], [⟨"a", "b"⟩, ⟨"b", "a"⟩]⟩ = .ok [] := by
      simp [planOf, buildMaps, addEdge, initAdjacency, initInDegree, Except.map,
        List.foldlM, Except.bind, bind, Except.pure, pure]
      rw [kahnLoop.eq_def]
    exact buildExecutionPlan_correct.2 ⟨[⟨"a"⟩, ⟨"b"⟩], [⟨"a", "b"⟩, ⟨"b", "a"⟩]⟩
      (fun _ => true) (fun _ => "e") ⟨.running, [], none⟩ [] hok (by decide)

/-- Claim C10: the two directions of an invalid edge endpoint behave
differently — an edge whose `from` id names no node makes the adjacency
construction throw the TypeError, so the execution fails with the
TypeError message (not the cycle message) and creates no step; whereas an
edge whose `to` id names no node is silently ignored: with all sources
valid and the effective graph acyclic, the plan still has length `|nodes|`
and the engine proceeds to execute it. -/
theorem buildExecutionPlan_endpoint_asymmetry :
    (∀ (g : Graph) (outcome : String → Bool) (failMsg : String → String)
        (st : EngineState),
      (∃ e ∈ g.edges, g.nodes.any (fun n => n.id == e.fromId) = false) →
      executeGraph outcome failMsg g st =
        { status := .failed, steps := st.steps, errorMessage := some typeErrMsg } ∧
      typeErrMsg ≠ cycleMsg) ∧
    (∀ g : Graph, (g.nodes.map Node.id).Nodup →
      (∀ e ∈ g.edges, g.nodes.any (fun n => n.id == e.fromId) = true) →
      AcyclicG g →
      ∃ plan, buildExecutionPlan g = .ok plan ∧ plan.length = g.nodes.length ∧
        (∀ (outcome : String → Bool) (failMsg : String → String) (st : EngineState),
          executeGraph outcome failMsg g st = execLoop outcome failMsg plan st)) := by
  constructor
  · intro g outcome failMsg st hex
    have herr := buildMaps_err g hex
    constructor
    · unfold executeGraph buildExecutionPlan planOf
      rw [herr]
      rfl
    · decide
  · intro g hnd hfrom hacyc
    obtain ⟨res, hok, hlen, -, -, -⟩ := kahn_main g hnd hfrom hacyc
    have hbep : buildExecutionPlan g = .ok res := by
      unfold buildExecutionPlan
      rw [hok]
      simp [hlen]
    refine ⟨res, hbep, hlen, ?_⟩
    intro outcome failMsg st
    unfold executeGraph
    rw [hbep]

/-- Claim C10 witness: the TypeError clause at a concrete graph whose one
edge starts at an unknown id, and the ignored-target clause at a concrete
graph with one valid edge and one edge into an unknown id. -/
theorem buildExecutionPlan_endpoint_asymmetry_witness :
    (executeGraph (fun _ => true) (fun _ => "e")
        ⟨[⟨"a"⟩, ⟨"b"⟩], [⟨"zzz", "a"⟩]⟩ ⟨.running, [], none⟩ =
      { status := .failed, steps := [], errorMessage := some typeErrMsg } ∧
      typeErrMsg ≠ cycleMsg) ∧
    (∃ plan, buildExecutionPlan ⟨[⟨"a"⟩, ⟨"b"⟩], [⟨"a", "b"⟩, ⟨"a", "zzz"⟩]⟩ =
        .ok plan ∧
      plan.length = (⟨[⟨"a"⟩, ⟨"b"⟩], [⟨"a", "b"⟩, ⟨"a", "zzz"⟩]⟩ : Graph).nodes.length ∧
      (∀ (outcome : String → Bool) (failMsg : String → String) (st : EngineState),
        executeGraph outcome failMsg ⟨[⟨"a"⟩, ⟨"b"⟩], [⟨"a", "b"⟩, ⟨"a", "zzz"⟩]⟩ st =
          execLoop outcome failMsg plan st)) := by
  constructor
  · exact buildExecutionPlan_endpoint_asymmetry.1 ⟨[⟨"a"⟩, ⟨"b"⟩], [⟨"zzz", "a"⟩]⟩
      (fun _ => true) (fun _ => "e") ⟨.running, [], none⟩ (by decide)
  · exact buildExecutionPlan_endpoint_asymmetry.2 ⟨[⟨"a"⟩, ⟨"b"⟩], [⟨"a", "b"⟩, ⟨"a", "zzz"⟩]⟩
      (by decide) (by decide)
      ⟨fun s => if s = "a" then 0 else 1, by unfold TopoOrdered; decide⟩
